import Mathlib

/-!
Verification of the einsum engine in `mat/einsum.go` (kujenga/gonum).

The Go code is shallowly embedded: every definition below mirrors one
function of the source.  `float64` values are modelled as exact integers
(`Int`): every operation the engine performs on element values is an
addition or a multiplication, and all concrete inputs exercised here are
small integers, which `float64` represents exactly.  Go panics are
modelled as `Except` errors.  Go's `map[rune]bool` iteration order is
unspecified; the model keeps first-insertion order, a deterministic
refinement of the set the map holds.
-/

namespace GonumMat

/-- The failure signals of the engine: each constructor corresponds to one
`panic` site (or out-of-range slice/array access) of `mat/einsum.go`.
`diverged` marks fuel exhaustion of the modelled drive loop, i.e. an
execution on which the Go loop never terminates. -/
inductive EinErr where
  | unexpectedChar (c : Char) : EinErr
  | nonLetter (c : Char) : EinErr
  | counterNotFound (r : Char) : EinErr
  | rankTooHigh (pos : Nat) : EinErr
  | dimMismatch (expected got operand : Nat) : EinErr
  | indexOutOfRange : EinErr
  | diverged : EinErr
  deriving DecidableEq, Repr

/-- A dense 2-D operand: the part of gonum's `Matrix` interface the engine
uses, namely `Dims() (r, c int)` and `At(i, j) float64` (row-major data).
A `VecDense` of length n reports `Dims() = (n, 1)`. -/
structure Matrix where
  rows : Nat
  cols : Nat
  data : List Int
  deriving DecidableEq, Repr

/-- `Matrix.At`: panics (models as an error) when the indexes are out of
bounds for the matrix, as gonum's implementations do. -/
def Matrix.At (m : Matrix) (i j : Nat) : Except EinErr Int :=
  if i < m.rows ∧ j < m.cols then .ok (m.data.getD (i * m.cols + j) 0)
  else .error .indexOutOfRange

/-- `Matrix.atD`: the pure (default-valued) reading used to state sums. -/
def Matrix.atD (m : Matrix) (i j : Nat) : Int :=
  m.data.getD (i * m.cols + j) 0

/-- `einsumCounter`: one odometer digit (rune, free flag, current value,
dimension). -/
structure einsumCounter where
  r : Char
  free : Bool
  v : Nat
  dim : Nat
  deriving DecidableEq, Repr

/-- `einsumExecutor`: the counter array plus the completion flag. -/
structure einsumExecutor where
  c : List einsumCounter
  done : Bool
  deriving DecidableEq, Repr

/-- `einsumOps`: the parsed form of the subscripts.  The Go `map[rune]bool`
fields `all` and `free` are modelled as duplicate-free lists in first
insertion order. -/
structure einsumOps where
  seq : List Char
  all : List Char
  free : List Char
  inputs : List (List Char)
  output : List Char
  deriving DecidableEq, Repr

/-- Insertion into a `map[rune]bool` modelled as an ordered set. -/
def insertDistinct (l : List Char) (r : Char) : List Char :=
  if r ∈ l then l else l ++ [r]

/-- `einsumOps.last`: the last rune of `seq`, or the zero rune when `seq`
is empty. -/
def einsumOps.last (o : einsumOps) : Char :=
  o.seq.getLastD (Char.ofNat 0)

/-- `opsParseMode`: the parser's three modes. -/
inductive opsParseMode where
  | newInput : opsParseMode
  | growInput : opsParseMode
  | output : opsParseMode
  deriving DecidableEq, Repr

/-- Appending a rune to the last input sequence (`o.inputs[len(o.inputs)-1]`). -/
def appendLast : List (List Char) → Char → List (List Char)
  | [], _ => []
  | [x], c => [x ++ [c]]
  | x :: y :: xs, c => x :: appendLast (y :: xs) c

/-- One iteration of the `parseEinsum` scanning loop on rune `c`.
The branch structure mirrors the Go `switch`: `','`, `'-'`, `'>'`, then
whitespace (skipped entirely, not recorded in `seq`), then letters, and a
parse error on anything else.  (`unicode.IsLetter`/`IsSpace` are modelled
by `Char.isAlpha`/`Char.isWhitespace`; all subscripts of interest are
ASCII, where the two agree.)  The `growInput` case indexes
`o.inputs[len-1]`, which in Go would panic on an empty slice; that state
is unreachable from the initial state. -/
def parseStep (mode : opsParseMode) (o : einsumOps) (c : Char) :
    Except EinErr (opsParseMode × einsumOps) :=
  if c = ',' then .ok (.newInput, { o with seq := o.seq ++ [c] })
  else if c = '-' then .ok (mode, { o with seq := o.seq ++ [c] })
  else if c = '>' then
    if o.last = '-' then .ok (.output, { o with seq := o.seq ++ [c] })
    else .error (.unexpectedChar c)
  else if c.isWhitespace then .ok (mode, o)
  else if c.isAlpha then
    let o' := { o with all := insertDistinct o.all c }
    match mode with
    | .newInput =>
        .ok (.growInput, { o' with inputs := o'.inputs ++ [[c]], seq := o'.seq ++ [c] })
    | .growInput =>
        if o'.inputs = [] then .error .indexOutOfRange
        else .ok (.growInput, { o' with inputs := appendLast o'.inputs c, seq := o'.seq ++ [c] })
    | .output =>
        .ok (.output, { o' with free := insertDistinct o'.free c,
                                output := o'.output ++ [c], seq := o'.seq ++ [c] })
  else .error (.nonLetter c)

/-- The scanning loop of `parseEinsum`, carrying the mode and the ops. -/
def parseGo : List Char → opsParseMode → einsumOps → Except EinErr (opsParseMode × einsumOps)
  | [], mode, o => .ok (mode, o)
  | c :: rest, mode, o =>
    match parseStep mode o c with
    | .error e => .error e
    | .ok (mode', o') => parseGo rest mode' o'

/-- `parseEinsum`: scan the subscripts into an `einsumOps`. -/
def parseEinsum (subscripts : String) : Except EinErr einsumOps :=
  (parseGo subscripts.toList .newInput ⟨[], [], [], [], []⟩).map (·.2)

/-- `joinComma`: the comma-joined operand sequences, as `einsumOps.String`
writes them. -/
def joinComma : List (List Char) → List Char
  | [] => []
  | [i] => i
  | i :: j :: rest => i ++ ',' :: joinComma (j :: rest)

/-- `einsumOps.String`: operand sequences joined by `','`, then `"->"`,
then the output sequence. -/
def einsumOps.toString (o : einsumOps) : String :=
  ⟨joinComma o.inputs ++ '-' :: '>' :: o.output⟩

/-- The scan of `dimOf` over the inputs, carrying the operand index `i`
and the dimension found so far (`0` = still unset, as in the Go code
where `var dim int` starts at zero). -/
def dimOfAux (r : Char) : List (List Char) → List Matrix → Nat → Nat → Except EinErr Nat
  | [], _, _, dim => .ok dim
  | input :: rest, operands, i, dim =>
    match input.findIdx? (· = r) with
    | none => dimOfAux r rest operands.tail (i + 1) dim
    | some pos =>
      if 2 ≤ pos then .error (.rankTooHigh pos)
      else
        match operands with
        | [] => .error .indexOutOfRange
        | m :: _ =>
          let v := if pos = 0 then m.rows else m.cols
          if dim = 0 then dimOfAux r rest operands.tail (i + 1) v
          else if dim ≠ v then .error (.dimMismatch dim v i)
          else dimOfAux r rest operands.tail (i + 1) dim

/-- `einsumOps.dimOf`: resolve the extent of rune `r` by scanning each
input sequence for its first occurrence (the Go loop `break`s at the
first match) and reading the corresponding axis of the operand at the
same position. -/
def dimOfGo (r : Char) (inputs : List (List Char)) (operands : List Matrix) :
    Except EinErr Nat :=
  dimOfAux r inputs operands 0 0

/-- Resolving the dimension of one counter (`c.c[i].dim = o.dimOf(...)`). -/
def resolveDim (o : einsumOps) (operands : List Matrix) (c : einsumCounter) :
    Except EinErr einsumCounter :=
  match dimOfGo c.r o.inputs operands with
  | .error e => .error e
  | .ok d => .ok { c with dim := d }

/-- `einsumOps.executor`: build the counters — free counters first in
output order, then every summed rune — then resolve each dimension and
collect the free dimensions as the output shape.  The Go code allocates
an array of `len(o.all)` slots and writes the two groups by index; the
guard below is exactly the condition under which those writes stay in
range (it holds whenever the output sequence has no repeated letter). -/
def einsumOps.executor (o : einsumOps) (operands : List Matrix) :
    Except EinErr (einsumExecutor × List Nat) :=
  let summed := o.all.filter (fun r => !(o.free.contains r))
  if o.output.length + summed.length = o.all.length then
    let base := o.output.map (fun r => (⟨r, true, 0, 0⟩ : einsumCounter))
        ++ summed.map (fun r => (⟨r, false, 0, 0⟩ : einsumCounter))
    match base.mapM (resolveDim o operands) with
    | .error e => .error e
    | .ok cs => .ok (⟨cs, false⟩, (cs.filter (·.free)).map (·.dim))
  else .error .indexOutOfRange

/-- `einsumExecutor.counterValFor`: linear scan for the counter of rune
`r`; the Go code panics when no counter matches. -/
def counterValFor : List einsumCounter → Char → Except EinErr Nat
  | [], r => .error (.counterNotFound r)
  | c :: rest, r => if c.r = r then .ok c.v else counterValFor rest r

/-- Pure (default-valued) variant of `counterValFor`, used to state sums. -/
def counterValForD : List einsumCounter → Char → Nat
  | [], _ => 0
  | c :: rest, r => if c.r = r then c.v else counterValForD rest r

/-- The dimension of the first counter carrying rune `r` (0 when none). -/
def counterDimFor : List einsumCounter → Char → Nat
  | [], _ => 0
  | c :: rest, r => if c.r = r then c.dim else counterDimFor rest r

/-- `einsumExecutor.outputIdx`: row-major projection of the free counter
values, scanning the counters backwards and skipping summed ones. -/
def outputIdx (e : einsumExecutor) : Nat :=
  (e.c.reverse.foldl
    (fun p ec => if ec.free then (p.1 + ec.v * p.2, p.2 * ec.dim) else p)
    ((0, 1) : Nat × Nat)).1

/-- `einsumExecutor.increment` on the reversed (least-significant-first)
counter list: increment the head if it has room, signal completion when
the most significant counter is maxed, otherwise reset and carry. -/
def incLS : List einsumCounter → List einsumCounter × Bool
  | [] => ([], false)
  | [c] =>
    if c.v + 1 < c.dim then ([⟨c.r, c.free, c.v + 1, c.dim⟩], false)
    else ([c], true)
  | c :: c₂ :: rest =>
    if c.v + 1 < c.dim then (⟨c.r, c.free, c.v + 1, c.dim⟩ :: c₂ :: rest, false)
    else
      let p := incLS (c₂ :: rest)
      (⟨c.r, c.free, 0, c.dim⟩ :: p.1, p.2)

/-- `einsumExecutor.increment`: the odometer step.  `done` is only ever
set, never cleared. -/
def increment (e : einsumExecutor) : einsumExecutor :=
  let p := incLS e.c.reverse
  ⟨p.1.reverse, e.done || p.2⟩

/-- `increment` iterated `n` times. -/
def iterInc : Nat → einsumExecutor → einsumExecutor
  | 0, e => e
  | n + 1, e => iterInc n (increment e)

/-- One operand's contribution in the loop body: look up the counter value
of every rune in the operand's sequence, then read the element — a single
index reads `At(i, 0)`, two or more read `At(i, j)` from the first two
(the Go code builds `indexes` and then switches on its length; an empty
sequence would index `indexes[0]` out of range). -/
def readOne (cs : List einsumCounter) (input : List Char) (m : Matrix) :
    Except EinErr Int :=
  match input.mapM (counterValFor cs) with
  | .error e => .error e
  | .ok [] => .error .indexOutOfRange
  | .ok [x] => m.At x 0
  | .ok (x :: y :: _) => m.At x y

/-- The product over the operands in the loop body (`cur`), seeded at 1.
The loop ranges over the operands; `ops.inputs[i]` is indexed positionally
and runs out of range when there are more operands than inputs. -/
def computeCur (cs : List einsumCounter) :
    List (List Char) → List Matrix → Except EinErr Int
  | _, [] => .ok 1
  | [], _ :: _ => .error .indexOutOfRange
  | input :: inputs, m :: ms =>
    match readOne cs input m with
    | .error e => .error e
    | .ok x =>
      match computeCur cs inputs ms with
      | .error e => .error e
      | .ok rest => .ok (x * rest)

/-- Pure variant of `readOne` (used to state sums). -/
def readOneD (cs : List einsumCounter) (input : List Char) (m : Matrix) : Int :=
  match input.map (counterValForD cs) with
  | [] => 0
  | [x] => m.atD x 0
  | x :: y :: _ => m.atD x y

/-- Pure variant of `computeCur`. -/
def curAtD (cs : List einsumCounter) : List (List Char) → List Matrix → Int
  | _, [] => 1
  | [], _ :: _ => 0
  | input :: inputs, m :: ms => readOneD cs input m * curAtD cs inputs ms

/-- `out[idx] += cur`, out of range when `idx` is not a position of `out`. -/
def setAdd (out : List Int) (idx : Nat) (cur : Int) : Except EinErr (List Int) :=
  if idx < out.length then .ok (out.set idx (out.getD idx 0 + cur))
  else .error .indexOutOfRange

/-- `einsumOps.outputZeros`: a zeroed buffer of size the product of the
output dimensions. -/
def outputZeros (dim : List Nat) : List Int :=
  List.replicate (dim.foldl (· * ·) 1) 0

/-- The product of all counter dimensions: the size of the iteration
space. -/
def prodDims (cs : List einsumCounter) : Nat :=
  (cs.map (·.dim)).prod

/-- The drive loop of `Einsum`, with explicit fuel: each step projects the
output index, multiplies the operand elements, accumulates, and
increments, until `done`.  Exhausted fuel models a non-terminating run. -/
def runLoop (inputs : List (List Char)) (operands : List Matrix) :
    Nat → einsumExecutor → List Int → Except EinErr (List Int)
  | 0, _, _ => .error .diverged
  | fuel + 1, e, out =>
    if e.done then .ok out
    else
      match computeCur e.c inputs operands with
      | .error err => .error err
      | .ok cur =>
        match setAdd out (outputIdx e) cur with
        | .error err => .error err
        | .ok out' => runLoop inputs operands fuel (increment e) out'

/-- `Einsum`: parse, build the executor, run the loop, return the output
shape and the flattened values.  The fuel `prodDims + 1` covers every
terminating run: from the all-zero state with positive dimensions the
loop performs exactly `prodDims` iterations. -/
def Einsum (subscripts : String) (operands : List Matrix) :
    Except EinErr (List Nat × List Int) :=
  match parseEinsum subscripts with
  | .error e => .error e
  | .ok ops =>
    match ops.executor operands with
    | .error e => .error e
    | .ok (exc, dim) =>
      match runLoop ops.inputs operands (prodDims exc.c + 1) exc (outputZeros dim) with
      | .error e => .error e
      | .ok res => .ok (dim, res)

/-! Specification-side definitions used to state the theorems. -/

/-- The digits of `j` in the mixed radix given by `ds`, least significant
first. -/
def digitsLS : List Nat → Nat → List Nat
  | [], _ => []
  | d :: ds, j => (j % d) :: digitsLS ds (j / d)

/-- The value of digit list `xs` in the mixed radix `ds`, least
significant first. -/
def valLS : List Nat → List Nat → Nat
  | d :: ds, x :: xs => x + d * valLS ds xs
  | _, _ => 0

/-- Replace the counter values by `ws` (pointwise). -/
def setVals (cs : List einsumCounter) (ws : List Nat) : List einsumCounter :=
  List.zipWith (fun c w => ⟨c.r, c.free, w, c.dim⟩) cs ws

/-- The counter values encoding `j`, most significant first (the last
counter is the least significant digit). -/
def digitsMS (cs : List einsumCounter) (j : Nat) : List Nat :=
  (digitsLS (cs.map (·.dim)).reverse j).reverse

/-- The executor state reached after `j` increments from all-zero
counters `cs`. -/
def stateAt (cs : List einsumCounter) (j : Nat) : einsumExecutor :=
  ⟨setVals cs (digitsMS cs j), false⟩

/-- Fold of `insertDistinct` over a rune list. -/
def insertAll (l : List Char) (ls : List Char) : List Char :=
  ls.foldl insertDistinct l

/-- A subscript string with its whitespace discarded, as the parser
discards it. -/
def stripWS (l : List Char) : List Char :=
  l.filter (fun c => !c.isWhitespace)

/-- The canonical text of a specification: operand sequences joined by
`','`, then `"->"`, then the output sequence. -/
def renderL (inputs : List (List Char)) (output : List Char) : List Char :=
  joinComma inputs ++ '-' :: '>' :: output

/-- A well-formed subscript in canonical form: at least one operand, each
operand a non-empty letter sequence, the output a letter sequence. -/
def WellFormedSubs (inputs : List (List Char)) (output : List Char) : Prop :=
  inputs ≠ [] ∧ (∀ i ∈ inputs, i ≠ [] ∧ ∀ c ∈ i, c.isAlpha = true) ∧
    ∀ c ∈ output, c.isAlpha = true

/-- The characters the parser consumes without failing when no `'>'`
appears: letters, whitespace, commas and dashes. -/
def goodChar (c : Char) : Prop :=
  c.isAlpha = true ∨ c.isWhitespace = true ∨ c = ',' ∨ c = '-'

instance (c : Char) : Decidable (goodChar c) := by
  unfold goodChar; infer_instance

/-- Compatibility of one operand with the counters: its sequence has rank
1 or 2, each rune has a counter, and the counter dimensions fit inside
the operand's axes, so that every element read of the drive loop is in
bounds. -/
def OperandOK (cs : List einsumCounter) (input : List Char) (m : Matrix) : Prop :=
  match input with
  | [r] => (∃ c ∈ cs, c.r = r) ∧ counterDimFor cs r ≤ m.rows ∧ 0 < m.cols
  | [r₁, r₂] => (∃ c ∈ cs, c.r = r₁) ∧ (∃ c ∈ cs, c.r = r₂) ∧
      counterDimFor cs r₁ ≤ m.rows ∧ counterDimFor cs r₂ ≤ m.cols
  | _ => False

/-- The full sum over all index combinations of the product of operand
elements: one term per point of the iteration space, indexed through the
mixed-radix digits. -/
def fullSum (cs : List einsumCounter) (inputs : List (List Char))
    (operands : List Matrix) : Int :=
  ∑ j ∈ Finset.range (prodDims cs), curAtD (setVals cs (digitsMS cs j)) inputs operands

/-- The extent candidates `dimOf` scans for rune `r`: per operand, the
axis length at the first occurrence of `r` in that operand's sequence. -/
def candExts (r : Char) (inputs : List (List Char)) (operands : List Matrix) :
    List Nat :=
  (inputs.zip operands).filterMap (fun p =>
    match p.1.findIdx? (· = r) with
    | some 0 => some p.2.rows
    | some 1 => some p.2.cols
    | _ => none)

/-! Supporting lemmas. -/

/-- With no counters, `increment` changes nothing and never sets `done`. -/
theorem increment_nil : increment ⟨[], false⟩ = ⟨[], false⟩ := rfl

/-- With no counters and no operands, the drive loop only ever runs out
of fuel: the Go loop never terminates. -/
theorem runLoop_nil_diverges (fuel : Nat) (q : Int) :
    runLoop [] [] fuel ⟨[], false⟩ [q] = .error .diverged := by
  induction fuel generalizing q with
  | zero => rfl
  | succ n ih =>
      show runLoop [] [] n (increment ⟨[], false⟩) ([q].set 0 (q + 1)) = .error .diverged
      rw [increment_nil]
      exact ih (q + 1)

theorem mem_insertDistinct_self (l : List Char) (r : Char) :
    r ∈ insertDistinct l r := by
  unfold insertDistinct
  split
  · assumption
  · exact List.mem_append_right _ (List.mem_singleton.mpr rfl)

theorem mem_insertDistinct_of_mem {a : Char} {l : List Char} (h : a ∈ l)
    (r : Char) : a ∈ insertDistinct l r := by
  unfold insertDistinct
  split
  · exact h
  · exact List.mem_append_left _ h

theorem isAlpha_not_special {c : Char} (h : c.isAlpha = true) :
    c ≠ ',' ∧ c ≠ '-' ∧ c ≠ '>' ∧ c.isWhitespace = false := by
  refine ⟨?_, ?_, ?_, ?_⟩
  · rintro rfl; exact absurd h (by decide)
  · rintro rfl; exact absurd h (by decide)
  · rintro rfl; exact absurd h (by decide)
  · by_contra hw
    rw [Bool.not_eq_false] at hw
    simp only [Char.isWhitespace, Bool.or_eq_true, decide_eq_true_eq] at hw
    rcases hw with ((h1 | h1) | h1) | h1 <;> (subst h1; exact absurd h (by decide))

/-- A whitespace rune is skipped entirely: no state change, not recorded. -/
theorem parseStep_ws {c : Char} (h : c.isWhitespace = true)
    (m : opsParseMode) (o : einsumOps) : parseStep m o c = .ok (m, o) := by
  have h1 : c ≠ ',' := by rintro rfl; exact absurd h (by decide)
  have h2 : c ≠ '-' := by rintro rfl; exact absurd h (by decide)
  have h3 : c ≠ '>' := by rintro rfl; exact absurd h (by decide)
  simp [parseStep, h1, h2, h3, h]

/-- A letter rune in a state with a current input appends it to the last
input sequence and stays in grow mode. -/
theorem parseStep_alpha_grow {c : Char} (h : c.isAlpha = true)
    (o : einsumOps) (hne : o.inputs ≠ []) :
    parseStep .growInput o c =
      .ok (.growInput, { o with all := insertDistinct o.all c,
                                inputs := appendLast o.inputs c,
                                seq := o.seq ++ [c] }) := by
  obtain ⟨h1, h2, h3, h4⟩ := isAlpha_not_special h
  simp [parseStep, h1, h2, h3, h4, h, hne]

/-- A letter rune in new-input mode starts a fresh input sequence. -/
theorem parseStep_alpha_new {c : Char} (h : c.isAlpha = true)
    (o : einsumOps) :
    parseStep .newInput o c =
      .ok (.growInput, { o with all := insertDistinct o.all c,
                                inputs := o.inputs ++ [[c]],
                                seq := o.seq ++ [c] }) := by
  obtain ⟨h1, h2, h3, h4⟩ := isAlpha_not_special h
  simp [parseStep, h1, h2, h3, h4, h]

/-- A letter rune in output mode extends the output sequence and marks
the rune free. -/
theorem parseStep_alpha_output {c : Char} (h : c.isAlpha = true)
    (o : einsumOps) :
    parseStep .output o c =
      .ok (.output, { o with all := insertDistinct o.all c,
                             free := insertDistinct o.free c,
                             output := o.output ++ [c],
                             seq := o.seq ++ [c] }) := by
  obtain ⟨h1, h2, h3, h4⟩ := isAlpha_not_special h
  simp [parseStep, h1, h2, h3, h4, h]

theorem parseStep_comma (m : opsParseMode) (o : einsumOps) :
    parseStep m o ',' = .ok (.newInput, { o with seq := o.seq ++ [','] }) := by
  simp [parseStep]

theorem parseStep_dash (m : opsParseMode) (o : einsumOps) :
    parseStep m o '-' = .ok (m, { o with seq := o.seq ++ ['-'] }) := by
  simp [parseStep]

theorem parseGo_append (a b : List Char) :
    ∀ (m : opsParseMode) (o : einsumOps),
      parseGo (a ++ b) m o =
        (parseGo a m o).bind (fun p => parseGo b p.1 p.2) := by
  induction a with
  | nil => intro m o; rfl
  | cons c rest ih =>
      intro m o
      show parseGo (c :: (rest ++ b)) m o = _
      rw [parseGo, parseGo]
      cases hstep : parseStep m o c with
      | error e => rfl
      | ok p => exact ih p.1 p.2

/-- Whitespace is transparent to the parser. -/
theorem parseGo_stripWS (l : List Char) :
    ∀ (m : opsParseMode) (o : einsumOps),
      parseGo l m o = parseGo (stripWS l) m o := by
  induction l with
  | nil => intro m o; rfl
  | cons c rest ih =>
      intro m o
      by_cases hw : c.isWhitespace = true
      · have : stripWS (c :: rest) = stripWS rest := by
          simp [stripWS, hw]
        rw [this, parseGo, parseStep_ws hw]
        exact ih m o
      · have : stripWS (c :: rest) = c :: stripWS rest := by
          simp [stripWS, hw]
        rw [this, parseGo, parseGo]
        cases hstep : parseStep m o c with
        | error e => rfl
        | ok p => exact ih p.1 p.2

theorem appendLast_concat (front : List (List Char)) (lst : List Char) (c : Char) :
    appendLast (front ++ [lst]) c = front ++ [lst ++ [c]] := by
  induction front with
  | nil => rfl
  | cons x fs ih =>
      cases hfs : fs ++ [lst] with
      | nil => exact absurd hfs (by simp)
      | cons y ys =>
          show appendLast (x :: (fs ++ [lst])) c = x :: (fs ++ [lst ++ [c]])
          rw [hfs]
          show x :: appendLast (y :: ys) c = x :: (fs ++ [lst ++ [c]])
          rw [← hfs, ih]

/-- Scanning a letter sequence in grow mode appends it to the last input. -/
theorem parseGo_letters_grow (ls : List Char) :
    ∀ (front : List (List Char)) (lst : List Char) (o : einsumOps),
      (∀ c ∈ ls, c.isAlpha = true) →
      o.inputs = front ++ [lst] →
      ∃ o', parseGo ls .growInput o = .ok (.growInput, o') ∧
        o'.inputs = front ++ [lst ++ ls] ∧ o'.output = o.output := by
  induction ls with
  | nil =>
      intro front lst o _ hin
      exact ⟨o, rfl, by simp [hin], rfl⟩
  | cons c rest ih =>
      intro front lst o hl hin
      have hc : c.isAlpha = true := hl c (List.mem_cons_self c rest)
      have hne : o.inputs ≠ [] := by rw [hin]; simp
      have step : parseGo (c :: rest) .growInput o =
          parseGo rest .growInput
            { o with all := insertDistinct o.all c,
                     inputs := appendLast o.inputs c,
                     seq := o.seq ++ [c] } := by
        rw [parseGo, parseStep_alpha_grow hc o hne]
      rw [step]
      obtain ⟨o', hgo, hi, ho⟩ := ih front (lst ++ [c])
        { o with all := insertDistinct o.all c,
                 inputs := appendLast o.inputs c,
                 seq := o.seq ++ [c] }
        (fun x hx => hl x (List.mem_cons_of_mem c hx))
        (by simp [hin, appendLast_concat])
      exact ⟨o', hgo, by rw [hi]; simp, ho⟩

/-- Scanning a non-empty letter sequence in new-input mode records it as
a fresh input. -/
theorem parseGo_input_new (ls : List Char) (hne : ls ≠ [])
    (hl : ∀ c ∈ ls, c.isAlpha = true) (o : einsumOps) :
    ∃ o', parseGo ls .newInput o = .ok (.growInput, o') ∧
      o'.inputs = o.inputs ++ [ls] ∧ o'.output = o.output := by
  cases ls with
  | nil => exact absurd rfl hne
  | cons c rest =>
      have hc : c.isAlpha = true := hl c (List.mem_cons_self c rest)
      have step : parseGo (c :: rest) .newInput o =
          parseGo rest .growInput
            { o with all := insertDistinct o.all c,
                     inputs := o.inputs ++ [[c]],
                     seq := o.seq ++ [c] } := by
        rw [parseGo, parseStep_alpha_new hc o]
      rw [step]
      obtain ⟨o', hgo, hi, ho⟩ := parseGo_letters_grow rest o.inputs [c]
        { o with all := insertDistinct o.all c,
                 inputs := o.inputs ++ [[c]],
                 seq := o.seq ++ [c] }
        (fun x hx => hl x (List.mem_cons_of_mem c hx)) (by simp)
      exact ⟨o', hgo, by rw [hi]; simp, ho⟩

/-- Scanning the comma-joined operand sequences records them all. -/
theorem parseGo_joinComma (inps : List (List Char)) :
    inps ≠ [] →
    (∀ i ∈ inps, i ≠ [] ∧ ∀ c ∈ i, c.isAlpha = true) →
    ∀ o : einsumOps,
      ∃ o', parseGo (joinComma inps) .newInput o = .ok (.growInput, o') ∧
        o'.inputs = o.inputs ++ inps ∧ o'.output = o.output := by
  induction inps with
  | nil => intro h; exact absurd rfl h
  | cons i rest ih =>
      intro _ h o
      obtain ⟨hine, hil⟩ := h i (List.mem_cons_self i rest)
      cases rest with
      | nil => exact parseGo_input_new i hine hil o
      | cons j rest' =>
          have hjoin : joinComma (i :: j :: rest') =
              i ++ (([','] ++ joinComma (j :: rest')) : List Char) := by
            show i ++ ',' :: joinComma (j :: rest') = _
            simp
          rw [hjoin, parseGo_append]
          obtain ⟨o₁, hgo₁, hi₁, ho₁⟩ := parseGo_input_new i hine hil o
          rw [hgo₁]
          show ∃ o', parseGo ([','] ++ joinComma (j :: rest')) .growInput o₁ = _ ∧ _
          rw [parseGo_append]
          have hcomma : parseGo [','] .growInput o₁ =
              .ok (.newInput, { o₁ with seq := o₁.seq ++ [','] }) := by
            rw [parseGo, parseStep_comma]; rfl
          rw [hcomma]
          obtain ⟨o', hgo', hi', ho'⟩ := ih (by simp)
            (fun x hx => h x (List.mem_cons_of_mem i hx))
            { o₁ with seq := o₁.seq ++ [','] }
          refine ⟨o', hgo', ?_, ?_⟩
          · rw [hi']; show o₁.inputs ++ (j :: rest') = _; rw [hi₁]; simp
          · rw [ho']; exact ho₁

/-- Scanning the `"->"` marker switches to output mode and changes
nothing else of the specification. -/
theorem parseGo_arrow (m : opsParseMode) (o : einsumOps) :
    parseGo ['-', '>'] m o =
      .ok (.output, { o with seq := (o.seq ++ ['-']) ++ ['>'] }) := by
  have hlast : einsumOps.last { o with seq := o.seq ++ ['-'] } = '-' := by
    simp [einsumOps.last]
  rw [parseGo, parseStep_dash]
  show parseGo ['>'] m { o with seq := o.seq ++ ['-'] } = _
  rw [parseGo]
  unfold parseStep
  rw [if_neg (by decide), if_neg (by decide), if_pos rfl, if_pos hlast]
  rfl

/-- Scanning a letter sequence in output mode appends it to the output. -/
theorem parseGo_output_letters (ls : List Char) :
    ∀ o : einsumOps, (∀ c ∈ ls, c.isAlpha = true) →
      ∃ o', parseGo ls .output o = .ok (.output, o') ∧
        o'.inputs = o.inputs ∧ o'.output = o.output ++ ls := by
  induction ls with
  | nil => intro o _; exact ⟨o, rfl, rfl, by simp⟩
  | cons c rest ih =>
      intro o hl
      have hc : c.isAlpha = true := hl c (List.mem_cons_self c rest)
      have step : parseGo (c :: rest) .output o =
          parseGo rest .output
            { o with all := insertDistinct o.all c,
                     free := insertDistinct o.free c,
                     output := o.output ++ [c],
                     seq := o.seq ++ [c] } := by
        rw [parseGo, parseStep_alpha_output hc o]
      rw [step]
      obtain ⟨o', hgo, hi, ho⟩ := ih
        { o with all := insertDistinct o.all c,
                 free := insertDistinct o.free c,
                 output := o.output ++ [c],
                 seq := o.seq ++ [c] }
        (fun x hx => hl x (List.mem_cons_of_mem c hx))
      exact ⟨o', hgo, hi, by rw [ho]; simp⟩

/-- Parsing the canonical rendering of a well-formed specification
recovers its inputs and output. -/
theorem parse_renderL (inputs : List (List Char)) (output : List Char)
    (hwf : WellFormedSubs inputs output) :
    ∃ o', parseGo (renderL inputs output) .newInput ⟨[], [], [], [], []⟩ =
        .ok (.output, o') ∧ o'.inputs = inputs ∧ o'.output = output := by
  obtain ⟨hne, hins, hout⟩ := hwf
  have hsplit : renderL inputs output =
      joinComma inputs ++ (['-', '>'] ++ output) := by
    simp [renderL]
  rw [hsplit, parseGo_append]
  obtain ⟨o₁, hgo₁, hi₁, ho₁⟩ := parseGo_joinComma inputs hne hins ⟨[], [], [], [], []⟩
  rw [hgo₁]
  show ∃ o', parseGo (['-', '>'] ++ output) .growInput o₁ = _ ∧ _
  rw [parseGo_append, parseGo_arrow]
  obtain ⟨o', hgo', hi', ho'⟩ := parseGo_output_letters output
    { o₁ with seq := (o₁.seq ++ ['-']) ++ ['>'] } hout
  refine ⟨o', hgo', ?_, ?_⟩
  · rw [hi']; show o₁.inputs = inputs; rw [hi₁]; simp
  · rw [ho']; show o₁.output ++ output = output; rw [ho₁]; simp

/-- Scanning any run of letters, whitespace, commas and dashes never
fails and never leaves output mode untouched state: the output and free
sets are unchanged, inputs stay non-empty letter sequences recorded in
`all`, and the mode never becomes output. -/
theorem parseGo_good (l : List Char) :
    ∀ (m : opsParseMode) (o : einsumOps),
      (∀ c ∈ l, goodChar c) →
      m ≠ .output →
      (m = .growInput → o.inputs ≠ []) →
      (∀ i ∈ o.inputs, i ≠ [] ∧ ∀ c ∈ i, c ∈ o.all) →
      ∃ m' o', parseGo l m o = .ok (m', o') ∧
        m' ≠ .output ∧
        o'.output = o.output ∧
        o'.free = o.free ∧
        (o'.inputs = [] → o.inputs = []) ∧
        (∀ i ∈ o'.inputs, i ≠ [] ∧ ∀ c ∈ i, c ∈ o'.all) := by
  induction l with
  | nil =>
      intro m o _ hm _ hinv
      exact ⟨m, o, rfl, hm, rfl, rfl, fun h => h, hinv⟩
  | cons c rest ih =>
      intro m o hl hm hgrow hinv
      have hrest : ∀ x ∈ rest, goodChar x :=
        fun x hx => hl x (List.mem_cons_of_mem c hx)
      rcases hl c (List.mem_cons_self c rest) with hca | hcw | hcc | hcd
      · -- a letter
        cases m with
        | output => exact absurd rfl hm
        | newInput =>
            rw [parseGo, parseStep_alpha_new hca o]
            obtain ⟨m', o', hgo, h1, h2, h3, h4, h5⟩ := ih .growInput
              { o with all := insertDistinct o.all c,
                       inputs := o.inputs ++ [[c]],
                       seq := o.seq ++ [c] }
              hrest (by intro h; cases h) (fun _ => by simp)
              (by
                intro i hi
                rcases List.mem_append.mp hi with hif | hil
                · obtain ⟨hne, hmem⟩ := hinv i hif
                  exact ⟨hne, fun x hx => mem_insertDistinct_of_mem (hmem x hx) c⟩
                · rw [List.mem_singleton.mp hil]
                  exact ⟨by simp, by
                    intro x hx
                    rw [List.mem_singleton.mp hx]
                    exact mem_insertDistinct_self o.all c⟩)
            refine ⟨m', o', hgo, h1, h2, h3, ?_, h5⟩
            intro h
            exact absurd (h4 h) (by simp)
        | growInput =>
            have hne : o.inputs ≠ [] := hgrow rfl
            rw [parseGo, parseStep_alpha_grow hca o hne]
            rcases List.eq_nil_or_concat o.inputs with hnil | ⟨front, lst, hfl₀⟩
            · exact absurd hnil hne
            have hfl : o.inputs = front ++ [lst] := by
              rw [hfl₀, List.concat_eq_append]
            obtain ⟨m', o', hgo, h1, h2, h3, h4, h5⟩ := ih .growInput
              { o with all := insertDistinct o.all c,
                       inputs := appendLast o.inputs c,
                       seq := o.seq ++ [c] }
              hrest (by intro h; cases h)
              (fun _ => by rw [hfl, appendLast_concat]; simp)
              (by
                intro i hi
                rw [hfl, appendLast_concat] at hi
                rcases List.mem_append.mp hi with hif | hil
                · obtain ⟨hne', hmem⟩ := hinv i (hfl ▸ List.mem_append_left _ hif)
                  exact ⟨hne', fun x hx => mem_insertDistinct_of_mem (hmem x hx) c⟩
                · rw [List.mem_singleton.mp hil]
                  refine ⟨by simp, ?_⟩
                  intro x hx
                  rcases List.mem_append.mp hx with hxl | hxc
                  · obtain ⟨_, hmem⟩ := hinv lst
                      (hfl ▸ List.mem_append_right _ (List.mem_singleton.mpr rfl))
                    exact mem_insertDistinct_of_mem (hmem x hxl) c
                  · rw [List.mem_singleton.mp hxc]
                    exact mem_insertDistinct_self o.all c)
            refine ⟨m', o', hgo, h1, h2, h3, ?_, h5⟩
            intro h
            exact absurd (h4 h) (by rw [hfl, appendLast_concat]; simp)
      · -- whitespace
        rw [parseGo, parseStep_ws hcw]
        exact ih m o hrest hm hgrow hinv
      · -- a comma
        subst hcc
        rw [parseGo, parseStep_comma]
        obtain ⟨m', o', hgo, h1, h2, h3, h4, h5⟩ := ih .newInput
          { o with seq := o.seq ++ [','] }
          hrest (by intro h; cases h) (by intro h; cases h) hinv
        exact ⟨m', o', hgo, h1, h2, h3, h4, h5⟩
      · -- a dash
        subst hcd
        rw [parseGo, parseStep_dash]
        obtain ⟨m', o', hgo, h1, h2, h3, h4, h5⟩ := ih m
          { o with seq := o.seq ++ ['-'] }
          hrest hm (fun h => hgrow h) hinv
        exact ⟨m', o', hgo, h1, h2, h3, h4, h5⟩

/-! Claim theorems. -/

/-- C1: evaluating subscript "ik,kj->ij" on the 2x2 operands
[[1,0],[1,1]] and [[2,3],[4,5]] returns shape [2,2] and flattened values
[2,3,6,8]. -/
theorem einsum_matmul_2x2 :
    Einsum "ik,kj->ij" [⟨2, 2, [1, 0, 1, 1]⟩, ⟨2, 2, [2, 3, 4, 5]⟩] =
      .ok ([2, 2], [2, 3, 6, 8]) := rfl

/-- C2 counterexample: the empty counter sequence satisfies the claim's
hypothesis vacuously and has extent product 1, yet after 1 application of
the increment step the done flag is still not set (it never is). -/
theorem increment_empty_never_done :
    prodDims [] = 1 ∧ (iterInc (prodDims []) ⟨[], false⟩).done = false :=
  ⟨rfl, rfl⟩

/-- C3 counterexample: the subscript "ij" is accepted by the parser (so it
is well-formed for the code, and is the form evaluated as a scalar sum),
but rendering the parsed specification back to text produces "ij->", not
the original string. -/
theorem parse_render_no_arrow_differs :
    (parseEinsum "ij").map einsumOps.toString = .ok "ij->" ∧ "ij->" ≠ "ij" :=
  ⟨rfl, by decide⟩

/-- C4 counterexample: for the diagonal subscript sequence "ii" over a
2x3 operand the two occurrences of 'i' bind the unequal extents 2 and 3,
yet dimension resolution silently returns the row extent 2 instead of
failing: only the first occurrence within an operand is ever examined. -/
theorem dimOf_diagonal_silent_pick :
    dimOfGo 'i' [['i', 'i']] [⟨2, 3, [0, 0, 0, 0, 0, 0]⟩] = .ok 2 ∧ (2 : Nat) ≠ 3 :=
  ⟨rfl, by decide⟩

/-- C5 counterexample: a '-' followed by a letter, and a '-' at the end of
the input, are both accepted by the parser without any error, contrary to
the claimed invalid-marker and end-of-input parse failures. -/
theorem parse_dash_not_arrow_accepted :
    parseEinsum "i-j" = .ok ⟨['i', '-', 'j'], ['i', 'j'], [], [['i', 'j']], []⟩ ∧
    parseEinsum "i-" = .ok ⟨['i', '-'], ['i'], [], [['i']], []⟩ :=
  ⟨rfl, rfl⟩

/-- C6 counterexample: for subscript "i->ij" on a 2-vector the output
letter 'j' occurs in no operand; dimension resolution does not fail — it
returns the unresolved extent 0 — and evaluation then fails with an
out-of-range write into the empty output buffer, not with a
malformed-expression error. -/
theorem unresolved_output_letter_resolves_to_zero :
    dimOfGo 'j' [['i']] [⟨2, 1, [1, 2]⟩] = .ok 0 ∧
    Einsum "i->ij" [⟨2, 1, [1, 2]⟩] = .error .indexOutOfRange :=
  ⟨rfl, rfl⟩

/-- C7: parsing the empty subscript string (zero operands) does NOT fail:
the parser returns an empty specification, and the evaluation loop then
never terminates — with no counters the increment step can never signal
completion, so the drive loop diverges for every amount of fuel (the Go
loop runs forever instead of surfacing a parse error). -/
theorem einsum_empty_subscripts_diverges :
    parseEinsum "" = .ok ⟨[], [], [], [], []⟩ ∧
    Einsum "" [] = .error .diverged ∧
    ∀ fuel : Nat, ∀ q : Int,
      runLoop [] [] fuel ⟨[], false⟩ [q] = .error .diverged :=
  ⟨rfl, rfl, runLoop_nil_diverges⟩

/-- C3 (amended): for every subscript string whose whitespace-stripped
text is in canonical form — operand letter-sequences joined by ',', then
the '->' marker, then the output letter-sequence — parsing succeeds and
rendering the parsed specification back to text reproduces the original
string modulo the discarded whitespace. -/
theorem parse_roundtrip (s : String) (inputs : List (List Char))
    (output : List Char) (hwf : WellFormedSubs inputs output)
    (hs : stripWS s.toList = renderL inputs output) :
    ∃ o', parseEinsum s = .ok o' ∧ o'.toString = String.mk (stripWS s.toList) := by
  obtain ⟨o', hgo, hi, ho⟩ := parse_renderL inputs output hwf
  refine ⟨o', ?_, ?_⟩
  · unfold parseEinsum
    rw [parseGo_stripWS, hs, hgo]
    rfl
  · unfold einsumOps.toString
    rw [hi, ho, hs]
    rfl

/-- Witness for `parse_roundtrip` at the subscript "ik, kj ->ij". -/
theorem parse_roundtrip_witness :
    ∃ o', parseEinsum "ik, kj ->ij" = .ok o' ∧
      o'.toString = String.mk (stripWS "ik, kj ->ij".toList) :=
  parse_roundtrip "ik, kj ->ij" [['i', 'k'], ['k', 'j']] ['i', 'j']
    (by refine ⟨by decide, ?_, by decide⟩; decide) (by decide)

/-- C5 (amended): a '-' that is not followed by '>' is not an error: any
subscript of letters, whitespace, commas and dashes — including a dash
followed by a letter or ending the input — parses successfully.  The
parser fails on the marker only when a '>' appears whose immediately
preceding recorded character is not '-'. -/
theorem dash_alone_accepted :
    (∀ s : String, (∀ c ∈ s.toList, goodChar c) → (parseEinsum s).isOk = true) ∧
    parseEinsum "i>" = .error (.unexpectedChar '>') ∧
    parseEinsum ">" = .error (.unexpectedChar '>') := by
  refine ⟨?_, rfl, rfl⟩
  intro s hs
  obtain ⟨m', o', hgo, -⟩ := parseGo_good s.toList .newInput ⟨[], [], [], [], []⟩
    hs (by intro h; cases h) (by intro h; cases h)
    (by intro i hi; exact absurd hi (List.not_mem_nil i))
  unfold parseEinsum
  rw [hgo]
  rfl

/-- Witness for `dash_alone_accepted`: "i-j" parses successfully. -/
theorem dash_alone_accepted_witness : (parseEinsum "i-j").isOk = true :=
  dash_alone_accepted.1 "i-j" (by decide)

theorem candExts_nil (r : Char) (operands : List Matrix) :
    candExts r [] operands = [] := rfl

theorem candExts_cons_nil (r : Char) (input : List Char)
    (rest : List (List Char)) : candExts r (input :: rest) [] = [] := rfl

theorem candExts_cons_none {r : Char} {input : List Char}
    (hf : input.findIdx? (· = r) = none) (rest : List (List Char))
    (m : Matrix) (ms : List Matrix) :
    candExts r (input :: rest) (m :: ms) = candExts r rest ms := by
  simp [candExts, hf]

theorem candExts_cons_zero {r : Char} {input : List Char}
    (hf : input.findIdx? (· = r) = some 0) (rest : List (List Char))
    (m : Matrix) (ms : List Matrix) :
    candExts r (input :: rest) (m :: ms) = m.rows :: candExts r rest ms := by
  simp [candExts, hf]

theorem candExts_cons_one {r : Char} {input : List Char}
    (hf : input.findIdx? (· = r) = some 1) (rest : List (List Char))
    (m : Matrix) (ms : List Matrix) :
    candExts r (input :: rest) (m :: ms) = m.cols :: candExts r rest ms := by
  simp [candExts, hf]

theorem dimOfAux_step_rank {r : Char} {input : List Char} {pos : Nat}
    (hf : input.findIdx? (· = r) = some pos) (hp : 2 ≤ pos)
    (rest : List (List Char)) (ops : List Matrix) (i dim : Nat) :
    dimOfAux r (input :: rest) ops i dim = .error (.rankTooHigh pos) := by
  simp only [dimOfAux, hf]
  rw [if_pos hp]

theorem dimOfAux_step_some {r : Char} {input : List Char} {pos : Nat}
    (hf : input.findIdx? (· = r) = some pos) (hp : ¬ 2 ≤ pos)
    (rest : List (List Char)) (m : Matrix) (ms : List Matrix) (i dim : Nat) :
    dimOfAux r (input :: rest) (m :: ms) i dim =
      (if dim = 0 then
        dimOfAux r rest ms (i + 1) (if pos = 0 then m.rows else m.cols)
       else if dim ≠ (if pos = 0 then m.rows else m.cols) then
        .error (.dimMismatch dim (if pos = 0 then m.rows else m.cols) i)
       else dimOfAux r rest ms (i + 1) dim) := by
  simp only [dimOfAux, hf, List.tail_cons]
  rw [if_neg hp]

/-- With a positive dimension already fixed, the scan succeeds exactly by
returning it, and then every remaining candidate extent agrees with it. -/
theorem dimOfAux_ok_pos (r : Char) :
    ∀ (inputs : List (List Char)) (operands : List Matrix) (i d d' : Nat),
      0 < d → dimOfAux r inputs operands i d = .ok d' →
      d' = d ∧ ∀ e ∈ candExts r inputs operands, e = d := by
  intro inputs
  induction inputs with
  | nil =>
      intro ops i d d' _ h
      simp only [dimOfAux, Except.ok.injEq] at h
      exact ⟨h.symm, by simp [candExts_nil]⟩
  | cons input rest ih =>
      intro ops i d d' hd h
      cases ops with
      | nil =>
          cases hf : input.findIdx? (· = r) with
          | none =>
              simp only [dimOfAux, hf, List.tail_nil] at h
              obtain ⟨h1, -⟩ := ih [] (i + 1) d d' hd h
              exact ⟨h1, by simp [candExts_cons_nil]⟩
          | some pos =>
              simp only [dimOfAux, hf] at h
              split at h <;> simp at h
      | cons m ms =>
          cases hf : input.findIdx? (· = r) with
          | none =>
              simp only [dimOfAux, hf, List.tail_cons] at h
              obtain ⟨h1, h2⟩ := ih ms (i + 1) d d' hd h
              exact ⟨h1, by rw [candExts_cons_none hf]; exact h2⟩
          | some pos =>
              simp only [dimOfAux, hf, List.tail_cons] at h
              by_cases h2 : 2 ≤ pos
              · rw [if_pos h2] at h; simp at h
              rw [if_neg h2] at h
              have hd0 : ¬ d = 0 := Nat.pos_iff_ne_zero.mp hd
              rw [if_neg hd0] at h
              by_cases hdv : d ≠ (if pos = 0 then m.rows else m.cols)
              · rw [if_pos hdv] at h; simp at h
              rw [if_neg hdv] at h
              push_neg at hdv
              obtain ⟨h1, hrest⟩ := ih ms (i + 1) d d' hd h
              have hpos01 : pos = 0 ∨ pos = 1 := by omega
              rcases hpos01 with hp | hp
              · subst hp
                rw [candExts_cons_zero hf]
                refine ⟨h1, ?_⟩
                intro e he
                rcases List.mem_cons.mp he with he1 | he2
                · rw [he1]
                  have hdm : d = m.rows := by simpa using hdv
                  exact hdm.symm
                · exact hrest e he2
              · subst hp
                rw [candExts_cons_one hf]
                refine ⟨h1, ?_⟩
                intro e he
                rcases List.mem_cons.mp he with he1 | he2
                · rw [he1]
                  have hdm : d = m.cols := by simpa using hdv
                  exact hdm.symm
                · exact hrest e he2

/-- From the unset state, a successful scan returns a value every
candidate extent equals, provided all candidates are positive. -/
theorem dimOfAux_ok_zero (r : Char) :
    ∀ (inputs : List (List Char)) (operands : List Matrix) (i d' : Nat),
      (∀ e ∈ candExts r inputs operands, 0 < e) →
      dimOfAux r inputs operands i 0 = .ok d' →
      ∀ e ∈ candExts r inputs operands, e = d' := by
  intro inputs
  induction inputs with
  | nil => intro ops i d' _ _ e he; exact absurd he (by simp [candExts_nil])
  | cons input rest ih =>
      intro ops i d' hpos h
      cases ops with
      | nil =>
          cases hf : input.findIdx? (· = r) with
          | none => intro e he; exact absurd he (by simp [candExts_cons_nil])
          | some pos =>
              simp only [dimOfAux, hf] at h
              split at h <;> simp at h
      | cons m ms =>
          cases hf : input.findIdx? (· = r) with
          | none =>
              simp only [dimOfAux, hf, List.tail_cons] at h
              rw [candExts_cons_none hf] at hpos ⊢
              exact ih ms (i + 1) d' hpos h
          | some pos =>
              by_cases h2 : 2 ≤ pos
              · rw [dimOfAux_step_rank hf h2] at h; simp at h
              rw [dimOfAux_step_some hf h2] at h
              rw [if_pos (rfl : (0 : Nat) = 0)] at h
              have hpos01 : pos = 0 ∨ pos = 1 := by omega
              rcases hpos01 with hp | hp
              · subst hp
                rw [if_pos (rfl : (0 : Nat) = 0)] at h
                rw [candExts_cons_zero hf] at hpos ⊢
                have hrows : 0 < m.rows := hpos m.rows (List.mem_cons_self _ _)
                obtain ⟨h1, hrest⟩ := dimOfAux_ok_pos r rest ms (i + 1) m.rows d' hrows h
                intro e he
                rcases List.mem_cons.mp he with he1 | he2
                · rw [he1, h1]
                · rw [hrest e he2, h1]
              · subst hp
                rw [if_neg (by omega : ¬ (1 : Nat) = 0)] at h
                rw [candExts_cons_one hf] at hpos ⊢
                have hcols : 0 < m.cols := hpos m.cols (List.mem_cons_self _ _)
                obtain ⟨h1, hrest⟩ := dimOfAux_ok_pos r rest ms (i + 1) m.cols d' hcols h
                intro e he
                rcases List.mem_cons.mp he with he1 | he2
                · rw [he1, h1]
                · rw [hrest e he2, h1]

/-- With matched positions below 2 and enough operands, the scan either
succeeds or fails precisely with a dimension-mismatch error. -/
theorem dimOfAux_ok_or_mismatch (r : Char) :
    ∀ (inputs : List (List Char)) (operands : List Matrix) (i d : Nat),
      inputs.length ≤ operands.length →
      (∀ input ∈ inputs, ∀ k, input.findIdx? (· = r) = some k → k < 2) →
      (∃ d', dimOfAux r inputs operands i d = .ok d') ∨
      (∃ a b k, dimOfAux r inputs operands i d = .error (.dimMismatch a b k)) := by
  intro inputs
  induction inputs with
  | nil => intro ops i d _ _; exact .inl ⟨d, rfl⟩
  | cons input rest ih =>
      intro ops i d hlen hrank
      cases ops with
      | nil => simp at hlen
      | cons m ms =>
          have hlen' : rest.length ≤ ms.length := by simpa using hlen
          have hrank' : ∀ inp ∈ rest, ∀ k, inp.findIdx? (· = r) = some k → k < 2 :=
            fun inp hi => hrank inp (List.mem_cons_of_mem input hi)
          cases hf : input.findIdx? (· = r) with
          | none =>
              have := ih ms (i + 1) d hlen' hrank'
              simpa only [dimOfAux, hf] using this
          | some pos =>
              have hp2 : pos < 2 := hrank input (List.mem_cons_self _ _) pos hf
              by_cases hd0 : d = 0
              · subst hd0
                have := ih ms (i + 1) (if pos = 0 then m.rows else m.cols) hlen' hrank'
                simpa only [dimOfAux, hf, if_neg (by omega : ¬ 2 ≤ pos), if_pos rfl]
                  using this
              · by_cases hdv : d ≠ (if pos = 0 then m.rows else m.cols)
                · refine .inr ⟨d, if pos = 0 then m.rows else m.cols, i, ?_⟩
                  simp only [dimOfAux, hf, if_neg (by omega : ¬ 2 ≤ pos),
                    if_neg hd0, if_pos hdv]
                · have := ih ms (i + 1) d hlen' hrank'
                  simpa only [dimOfAux, hf, if_neg (by omega : ¬ 2 ≤ pos),
                    if_neg hd0, if_neg hdv] using this

/-- Agreement of all candidates on a positive extent makes the scan
succeed, from the unset state as well as from the agreeing state. -/
theorem dimOfAux_agree_ok (r : Char) :
    ∀ (inputs : List (List Char)) (operands : List Matrix) (i d : Nat),
      0 < d →
      inputs.length ≤ operands.length →
      (∀ input ∈ inputs, ∀ k, input.findIdx? (· = r) = some k → k < 2) →
      (∀ e ∈ candExts r inputs operands, e = d) →
      (dimOfAux r inputs operands i 0 = .ok 0 ∨
       dimOfAux r inputs operands i 0 = .ok d) ∧
      dimOfAux r inputs operands i d = .ok d := by
  intro inputs
  induction inputs with
  | nil => intro ops i d _ _ _ _; exact ⟨.inl rfl, rfl⟩
  | cons input rest ih =>
      intro ops i d hd hlen hrank hall
      cases ops with
      | nil => simp at hlen
      | cons m ms =>
          have hlen' : rest.length ≤ ms.length := by simpa using hlen
          have hrank' : ∀ inp ∈ rest, ∀ k, inp.findIdx? (· = r) = some k → k < 2 :=
            fun inp hi => hrank inp (List.mem_cons_of_mem input hi)
          cases hf : input.findIdx? (· = r) with
          | none =>
              rw [candExts_cons_none hf] at hall
              have := ih ms (i + 1) d hd hlen' hrank' hall
              refine ⟨?_, by simp only [dimOfAux, hf]; exact this.2⟩
              rcases this.1 with h | h
              · exact .inl (by simp only [dimOfAux, hf]; exact h)
              · exact .inr (by simp only [dimOfAux, hf]; exact h)
          | some pos =>
              have hp2 : pos < 2 := hrank input (List.mem_cons_self _ _) pos hf
              have hpos01 : pos = 0 ∨ pos = 1 := by omega
              rcases hpos01 with hp | hp
              · subst hp
                rw [candExts_cons_zero hf] at hall
                have hv : m.rows = d := hall m.rows (List.mem_cons_self _ _)
                have hall' : ∀ e ∈ candExts r rest ms, e = d :=
                  fun e he => hall e (List.mem_cons_of_mem _ he)
                have := ih ms (i + 1) d hd hlen' hrank' hall'
                have hval : (if (0 : Nat) = 0 then m.rows else m.cols) = m.rows :=
                  if_pos rfl
                constructor
                · refine .inr ?_
                  rw [dimOfAux_step_some hf (by omega),
                    if_pos (rfl : (0 : Nat) = 0), hval, hv]
                  exact this.2
                · have hd0 : ¬ d = 0 := Nat.pos_iff_ne_zero.mp hd
                  have hdv : ¬ d ≠ m.rows := by rw [hv]; exact fun hc => hc rfl
                  rw [dimOfAux_step_some hf (by omega), if_neg hd0, hval,
                    if_neg hdv]
                  exact this.2
              · subst hp
                rw [candExts_cons_one hf] at hall
                have hv : m.cols = d := hall m.cols (List.mem_cons_self _ _)
                have hall' : ∀ e ∈ candExts r rest ms, e = d :=
                  fun e he => hall e (List.mem_cons_of_mem _ he)
                have := ih ms (i + 1) d hd hlen' hrank' hall'
                have hval : (if (1 : Nat) = 0 then m.rows else m.cols) = m.cols :=
                  if_neg (by omega)
                constructor
                · refine .inr ?_
                  rw [dimOfAux_step_some hf (by omega),
                    if_pos (rfl : (0 : Nat) = 0), hval, hv]
                  exact this.2
                · have hd0 : ¬ d = 0 := Nat.pos_iff_ne_zero.mp hd
                  have hdv : ¬ d ≠ m.cols := by rw [hv]; exact fun hc => hc rfl
                  rw [dimOfAux_step_some hf (by omega), if_neg hd0, hval,
                    if_neg hdv]
                  exact this.2


/-- C4 (amended): dimension resolution considers, for each operand, only
the FIRST occurrence of the letter in that operand's sequence (later
occurrences are ignored, see the counterexample).  Over those
first-occurrence extents (all positive, matched at positions 0 or 1,
with an operand per input) it never silently picks a conflicting size:
it succeeds with the common extent when they all agree, and fails with a
dimension-mismatch error whenever two of them differ. -/
theorem dimOf_first_occurrence_mismatch (r : Char) (inputs : List (List Char))
    (operands : List Matrix)
    (hlen : inputs.length ≤ operands.length)
    (hrank : ∀ input ∈ inputs, (input.findIdx? (· = r)).getD 0 < 2)
    (hpos : ∀ e ∈ candExts r inputs operands, 0 < e) :
    (∀ d, 0 < d → candExts r inputs operands ≠ [] →
      (∀ e ∈ candExts r inputs operands, e = d) →
      dimOfGo r inputs operands = .ok d) ∧
    (∀ e₁ ∈ candExts r inputs operands, ∀ e₂ ∈ candExts r inputs operands,
      e₁ ≠ e₂ →
      ∃ a b k, dimOfGo r inputs operands = .error (.dimMismatch a b k)) := by
  have hrank₀ : ∀ input ∈ inputs, ∀ k, input.findIdx? (· = r) = some k → k < 2 := by
    intro input hin k hk
    have := hrank input hin
    rw [hk] at this
    simpa using this
  constructor
  · intro d hd hne hall
    have h := dimOfAux_agree_ok r inputs operands 0 d hd hlen hrank₀ hall
    rcases h.1 with h0 | h0
    · exfalso
      have hall0 := dimOfAux_ok_zero r inputs operands 0 0
        (fun e he => hpos e he) h0
      obtain ⟨e, he⟩ := List.exists_mem_of_ne_nil _ hne
      have := hpos e he
      rw [hall0 e he] at this
      exact Nat.lt_irrefl 0 this
    · exact h0
  · intro e₁ he₁ e₂ he₂ hne
    rcases dimOfAux_ok_or_mismatch r inputs operands 0 0 hlen hrank₀ with
      ⟨d', hok⟩ | ⟨a, b, k, herr⟩
    · exfalso
      have hall := dimOfAux_ok_zero r inputs operands 0 d'
        (fun e he => hpos e he) hok
      rw [hall e₁ he₁, hall e₂ he₂] at hne
      exact hne rfl
    · exact ⟨a, b, k, herr⟩

/-- Witness for `dimOf_first_occurrence_mismatch`: contracting 'k'
between operands of extent 2 and 3 at its first occurrences.  The
mismatch branch produces a dimension-mismatch error (as the direct
computation confirms). -/
theorem dimOf_first_occurrence_mismatch_witness :
    (∀ d, 0 < d →
      candExts 'k' [['i', 'k'], ['k', 'j']]
        [⟨2, 2, [1, 0, 1, 1]⟩, ⟨3, 2, [2, 3, 4, 5, 6, 7]⟩] ≠ [] →
      (∀ e ∈ candExts 'k' [['i', 'k'], ['k', 'j']]
        [⟨2, 2, [1, 0, 1, 1]⟩, ⟨3, 2, [2, 3, 4, 5, 6, 7]⟩], e = d) →
      dimOfGo 'k' [['i', 'k'], ['k', 'j']]
        [⟨2, 2, [1, 0, 1, 1]⟩, ⟨3, 2, [2, 3, 4, 5, 6, 7]⟩] = .ok d) ∧
    (∀ e₁ ∈ candExts 'k' [['i', 'k'], ['k', 'j']]
        [⟨2, 2, [1, 0, 1, 1]⟩, ⟨3, 2, [2, 3, 4, 5, 6, 7]⟩],
      ∀ e₂ ∈ candExts 'k' [['i', 'k'], ['k', 'j']]
        [⟨2, 2, [1, 0, 1, 1]⟩, ⟨3, 2, [2, 3, 4, 5, 6, 7]⟩],
      e₁ ≠ e₂ →
      ∃ a b k, dimOfGo 'k' [['i', 'k'], ['k', 'j']]
        [⟨2, 2, [1, 0, 1, 1]⟩, ⟨3, 2, [2, 3, 4, 5, 6, 7]⟩] =
          .error (.dimMismatch a b k)) :=
  dimOf_first_occurrence_mismatch 'k' [['i', 'k'], ['k', 'j']]
    [⟨2, 2, [1, 0, 1, 1]⟩, ⟨3, 2, [2, 3, 4, 5, 6, 7]⟩]
    (by decide) (by decide) (by decide)

/-! Mixed-radix digit arithmetic for the odometer. -/

theorem digitsLS_length (ds : List Nat) : ∀ j, (digitsLS ds j).length = ds.length := by
  induction ds with
  | nil => intro j; rfl
  | cons d ds ih => intro j; simp [digitsLS, ih]

theorem digitsLS_lt (ds : List Nat) :
    ∀ j, (∀ d ∈ ds, 1 ≤ d) → List.Forall₂ (· < ·) (digitsLS ds j) ds := by
  induction ds with
  | nil => intro j _; exact List.Forall₂.nil
  | cons d ds ih =>
      intro j h
      refine List.Forall₂.cons ?_ (ih (j / d) (fun x hx => h x (List.mem_cons_of_mem d hx)))
      exact Nat.mod_lt j (by have := h d (List.mem_cons_self d ds); omega)

theorem digitsLS_zero (ds : List Nat) : digitsLS ds 0 = ds.map (fun _ => 0) := by
  induction ds with
  | nil => rfl
  | cons d ds ih => simp [digitsLS, Nat.zero_mod, Nat.zero_div, ih]

theorem valLS_digitsLS (ds : List Nat) :
    ∀ j, (∀ d ∈ ds, 1 ≤ d) → j < ds.prod → valLS ds (digitsLS ds j) = j := by
  induction ds with
  | nil =>
      intro j _ hj
      simp only [List.prod_nil] at hj
      have hj0 : j = 0 := by omega
      subst hj0
      rfl
  | cons d ds ih =>
      intro j h hj
      have hd : 1 ≤ d := h d (List.mem_cons_self d ds)
      rw [List.prod_cons] at hj
      have hdiv : j / d < ds.prod := by
        rw [Nat.div_lt_iff_lt_mul (by omega : 0 < d), Nat.mul_comm]
        exact hj
      show j % d + d * valLS ds (digitsLS ds (j / d)) = j
      rw [ih (j / d) (fun x hx => h x (List.mem_cons_of_mem d hx)) hdiv]
      exact Nat.mod_add_div j d

theorem digitsLS_exists {ds : List Nat} {vs : List Nat}
    (h : List.Forall₂ (· < ·) vs ds) :
    ∃ j, j < ds.prod ∧ digitsLS ds j = vs := by
  induction h with
  | nil => exact ⟨0, by simp, rfl⟩
  | cons hvd htail ih =>
      obtain ⟨j', hj', hdig⟩ := ih
      rename_i v d vs' ds'
      refine ⟨v + d * j', ?_, ?_⟩
      · rw [List.prod_cons]
        calc v + d * j' < d + d * j' := by omega
        _ = d * (j' + 1) := by ring
        _ ≤ d * ds'.prod := Nat.mul_le_mul_left d (by omega)
      · show ((v + d * j') % d) :: digitsLS ds' ((v + d * j') / d) = v :: vs'
        rw [Nat.add_mul_mod_self_left, Nat.mod_eq_of_lt hvd]
        rw [Nat.add_mul_div_left _ _ (by omega : 0 < d), Nat.div_eq_of_lt hvd]
        rw [Nat.zero_add, hdig]

theorem mod_succ_of_lt {j d : Nat} (h : j % d + 1 < d) : (j + 1) % d = j % d + 1 := by
  conv_lhs => rw [← Nat.div_add_mod j d]
  rw [Nat.add_assoc, Nat.mul_add_mod]
  exact Nat.mod_eq_of_lt h

theorem div_succ_of_lt {j d : Nat} (h : j % d + 1 < d) : (j + 1) / d = j / d := by
  conv_lhs => rw [← Nat.div_add_mod j d]
  rw [Nat.add_assoc, Nat.mul_add_div (by omega : 0 < d)]
  rw [Nat.div_eq_of_lt h, Nat.add_zero]

theorem mod_succ_of_max {j d : Nat} (_hd : 0 < d) (h : j % d + 1 = d) :
    (j + 1) % d = 0 := by
  conv_lhs => rw [← Nat.div_add_mod j d]
  rw [Nat.add_assoc, Nat.mul_add_mod, h, Nat.mod_self]

theorem div_succ_of_max {j d : Nat} (hd : 0 < d) (h : j % d + 1 = d) :
    (j + 1) / d = j / d + 1 := by
  conv_lhs => rw [← Nat.div_add_mod j d]
  rw [Nat.add_assoc, Nat.mul_add_div hd, h, Nat.div_self hd]

theorem mod_of_max (d q : Nat) (hd : 1 ≤ d) : (d - 1 + d * q) % d = d - 1 := by
  rw [Nat.add_mul_mod_self_left]
  exact Nat.mod_eq_of_lt (by omega)

theorem div_of_max (d q : Nat) (hd : 1 ≤ d) : (d - 1 + d * q) / d = q := by
  rw [Nat.add_mul_div_left _ _ (by omega : 0 < d)]
  rw [Nat.div_eq_of_lt (by omega), Nat.zero_add]

theorem setVals_length (cs : List einsumCounter) :
    ∀ ws : List Nat, ws.length = cs.length → (setVals cs ws).length = cs.length := by
  intro ws h
  unfold setVals
  rw [List.length_zipWith, h, Nat.min_self]

theorem setVals_reverse (cs : List einsumCounter) :
    ∀ ws : List Nat, ws.length = cs.length →
      (setVals cs ws).reverse = setVals cs.reverse ws.reverse := by
  induction cs with
  | nil =>
      intro ws h
      rw [List.length_eq_zero.mp h]
      rfl
  | cons c cs ih =>
      intro ws h
      cases ws with
      | nil => simp at h
      | cons w ws' =>
          have h' : ws'.length = cs.length := by simpa using h
          show ((⟨c.r, c.free, w, c.dim⟩ : einsumCounter) :: setVals cs ws').reverse =
            setVals (c :: cs).reverse (w :: ws').reverse
          rw [List.reverse_cons, List.reverse_cons, List.reverse_cons, ih ws' h']
          unfold setVals
          rw [List.zipWith_append _ _ _ _ _ (by simp [h'])]
          rfl

theorem setVals_map_v (cs : List einsumCounter) :
    ∀ ws : List Nat, ws.length = cs.length →
      (setVals cs ws).map (·.v) = ws := by
  induction cs with
  | nil =>
      intro ws h
      rw [List.length_eq_zero.mp h]
      rfl
  | cons c cs ih =>
      intro ws h
      cases ws with
      | nil => simp at h
      | cons w ws' =>
          have h' : ws'.length = cs.length := by simpa using h
          show w :: (setVals cs ws').map (·.v) = w :: ws'
          rw [ih ws' h']

theorem setVals_self_zeros (cs : List einsumCounter) (h0 : ∀ c ∈ cs, c.v = 0) :
    setVals cs (cs.map (fun _ => 0)) = cs := by
  induction cs with
  | nil => rfl
  | cons c cs ih =>
      show (⟨c.r, c.free, 0, c.dim⟩ : einsumCounter) :: setVals cs (cs.map (fun _ => 0)) =
        c :: cs
      rw [ih (fun x hx => h0 x (List.mem_cons_of_mem c hx))]
      have hc : c = ⟨c.r, c.free, c.v, c.dim⟩ := rfl
      rw [h0 c (List.mem_cons_self c cs)] at hc
      rw [← hc]

theorem digitsMS_length (cs : List einsumCounter) (j : Nat) :
    (digitsMS cs j).length = cs.length := by
  unfold digitsMS
  rw [List.length_reverse, digitsLS_length, List.length_reverse, List.length_map]

theorem stateAt_zero (cs : List einsumCounter) (h0 : ∀ c ∈ cs, c.v = 0) :
    stateAt cs 0 = ⟨cs, false⟩ := by
  unfold stateAt digitsMS
  rw [digitsLS_zero, ← List.map_reverse, List.reverse_reverse, List.map_map]
  show (⟨setVals cs (cs.map (fun _ => 0)), false⟩ : einsumExecutor) = ⟨cs, false⟩
  rw [setVals_self_zeros cs h0]

/-- The key step: on a least-significant-first counter list holding the
digits of `j`, the carry scan produces the digits of `j + 1` (and does
not signal completion) as long as `j + 1` is still inside the iteration
space. -/
theorem incLS_digits (ls : List einsumCounter) :
    ∀ j : Nat, (∀ c ∈ ls, 1 ≤ c.dim) →
      j + 1 < (ls.map (·.dim)).prod →
      incLS (setVals ls (digitsLS (ls.map (·.dim)) j)) =
        (setVals ls (digitsLS (ls.map (·.dim)) (j + 1)), false) := by
  induction ls with
  | nil =>
      intro j _ hj
      simp only [List.map_nil, List.prod_nil] at hj
      omega
  | cons c ls ih =>
      intro j h1 hj
      have hd : 1 ≤ c.dim := h1 c (List.mem_cons_self _ _)
      cases ls with
      | nil =>
          simp only [List.map_cons, List.map_nil, List.prod_cons, List.prod_nil,
            Nat.mul_one] at hj
          have hjd : j % c.dim = j := Nat.mod_eq_of_lt (by omega)
          show incLS [⟨c.r, c.free, j % c.dim, c.dim⟩] =
            ([⟨c.r, c.free, (j + 1) % c.dim, c.dim⟩], false)
          rw [Nat.mod_eq_of_lt hj, hjd]
          simp only [incLS]
          rw [if_pos hj]
      | cons c₂ ls₂ =>
          show incLS (⟨c.r, c.free, j % c.dim, c.dim⟩ ::
              setVals (c₂ :: ls₂) (digitsLS ((c₂ :: ls₂).map (·.dim)) (j / c.dim))) =
            (⟨c.r, c.free, (j + 1) % c.dim, c.dim⟩ ::
              setVals (c₂ :: ls₂) (digitsLS ((c₂ :: ls₂).map (·.dim)) ((j + 1) / c.dim)),
             false)
          show incLS (⟨c.r, c.free, j % c.dim, c.dim⟩ ::
              ⟨c₂.r, c₂.free, (j / c.dim) % c₂.dim, c₂.dim⟩ ::
              setVals ls₂ (digitsLS (ls₂.map (·.dim)) (j / c.dim / c₂.dim))) = _
          by_cases hlt : j % c.dim + 1 < c.dim
          · simp only [incLS]
            rw [if_pos hlt, mod_succ_of_lt hlt, div_succ_of_lt hlt]
            rfl
          · have hmax : j % c.dim + 1 = c.dim := by
              have := Nat.mod_lt j (show 0 < c.dim by omega)
              omega
            have hbound : j / c.dim + 1 < ((c₂ :: ls₂).map (·.dim)).prod := by
              have hprodc : ((c :: c₂ :: ls₂).map (·.dim)).prod
                  = c.dim * ((c₂ :: ls₂).map (·.dim)).prod := by
                rw [List.map_cons, List.prod_cons]
              rw [hprodc] at hj
              have hsplit : c.dim * (j / c.dim) + j % c.dim = j := Nat.div_add_mod j c.dim
              have hstep : c.dim * (j / c.dim + 1) = c.dim * (j / c.dim) + c.dim := by
                rw [Nat.mul_add, Nat.mul_one]
              have hlt2 : c.dim * (j / c.dim + 1) <
                  c.dim * ((c₂ :: ls₂).map (·.dim)).prod := by omega
              exact Nat.lt_of_mul_lt_mul_left hlt2
            have htail := ih (j / c.dim)
              (fun x hx => h1 x (List.mem_cons_of_mem _ hx)) hbound
            simp only [incLS]
            rw [if_neg hlt]
            show (⟨c.r, c.free, 0, c.dim⟩ ::
                (incLS (setVals (c₂ :: ls₂)
                  (digitsLS ((c₂ :: ls₂).map (·.dim)) (j / c.dim)))).1,
              (incLS (setVals (c₂ :: ls₂)
                  (digitsLS ((c₂ :: ls₂).map (·.dim)) (j / c.dim)))).2) = _
            rw [htail, mod_succ_of_max (by omega) hmax, div_succ_of_max (by omega) hmax]

/-- When `j + 1` is the size of the iteration space — every digit is
maxed — the carry scan signals completion. -/
theorem incLS_digits_done (ls : List einsumCounter) :
    ∀ j : Nat, ls ≠ [] → (∀ c ∈ ls, 1 ≤ c.dim) →
      j + 1 = (ls.map (·.dim)).prod →
      (incLS (setVals ls (digitsLS (ls.map (·.dim)) j))).2 = true := by
  induction ls with
  | nil => intro j h; exact absurd rfl h
  | cons c ls ih =>
      intro j _ h1 hj
      have hd : 1 ≤ c.dim := h1 c (List.mem_cons_self _ _)
      have hP : 1 ≤ (ls.map (·.dim)).prod := by
        refine List.one_le_prod_of_one_le ?_
        intro x hx
        obtain ⟨c', hc', rfl⟩ := List.mem_map.mp hx
        exact h1 c' (List.mem_cons_of_mem _ hc')
      have hprod : ((c :: ls).map (·.dim)).prod = c.dim * (ls.map (·.dim)).prod := by
        simp [List.prod_cons]
      rw [hprod] at hj
      have hj' : j = (c.dim - 1) + c.dim * ((ls.map (·.dim)).prod - 1) := by
        set P := (ls.map (·.dim)).prod with hPdef
        have h2 : c.dim * P = c.dim * (P - 1) + c.dim := by
          conv_lhs => rw [show P = (P - 1) + 1 by omega]
          rw [Nat.mul_add, Nat.mul_one]
        rw [h2] at hj
        omega
      have hmod : j % c.dim = c.dim - 1 := by rw [hj', mod_of_max _ _ hd]
      have hdiv : j / c.dim = (ls.map (·.dim)).prod - 1 := by
        rw [hj', div_of_max _ _ hd]
      have hnlt : ¬ (j % c.dim + 1 < c.dim) := by rw [hmod]; omega
      cases ls with
      | nil =>
          show (incLS [⟨c.r, c.free, j % c.dim, c.dim⟩]).2 = true
          simp only [incLS]
          rw [if_neg hnlt]
      | cons c₂ ls₂ =>
          show (incLS (⟨c.r, c.free, j % c.dim, c.dim⟩ ::
              ⟨c₂.r, c₂.free, (j / c.dim) % c₂.dim, c₂.dim⟩ ::
              setVals ls₂ (digitsLS (ls₂.map (·.dim)) (j / c.dim / c₂.dim)))).2 = true
          simp only [incLS]
          rw [if_neg hnlt]
          show (incLS (setVals (c₂ :: ls₂)
              (digitsLS ((c₂ :: ls₂).map (·.dim)) (j / c.dim)))).2 = true
          refine ih (j / c.dim) (by simp)
            (fun x hx => h1 x (List.mem_cons_of_mem _ hx)) ?_
          rw [hdiv]
          omega

theorem iterInc_succ (n : Nat) : ∀ e : einsumExecutor,
    iterInc (n + 1) e = increment (iterInc n e) := by
  induction n with
  | zero => intro e; rfl
  | succ n ih =>
      intro e
      show iterInc (n + 1) (increment e) = increment (iterInc (n + 1) e)
      rw [ih (increment e)]
      rfl

theorem increment_stateAt (cs : List einsumCounter) (j : Nat)
    (h1 : ∀ c ∈ cs, 1 ≤ c.dim) (hj : j + 1 < prodDims cs) :
    increment (stateAt cs j) = stateAt cs (j + 1) := by
  have hrev : ∀ k, (setVals cs (digitsMS cs k)).reverse =
      setVals cs.reverse (digitsLS (cs.reverse.map (·.dim)) k) := by
    intro k
    rw [setVals_reverse cs _ (digitsMS_length cs k)]
    unfold digitsMS
    rw [List.reverse_reverse, List.map_reverse]
  have hprodrev : (cs.reverse.map (·.dim)).prod = prodDims cs := by
    rw [List.map_reverse, List.prod_reverse]
    rfl
  show (⟨(incLS (setVals cs (digitsMS cs j)).reverse).1.reverse,
      false || (incLS (setVals cs (digitsMS cs j)).reverse).2⟩ : einsumExecutor) =
    stateAt cs (j + 1)
  rw [hrev j, incLS_digits cs.reverse j
    (fun c hc => h1 c (List.mem_reverse.mp hc)) (by rw [hprodrev]; exact hj)]
  show (⟨(setVals cs.reverse (digitsLS (cs.reverse.map (·.dim)) (j + 1))).reverse,
      false⟩ : einsumExecutor) = stateAt cs (j + 1)
  rw [← hrev (j + 1), List.reverse_reverse]
  rfl

theorem increment_stateAt_done (cs : List einsumCounter) (j : Nat)
    (hne : cs ≠ []) (h1 : ∀ c ∈ cs, 1 ≤ c.dim) (hj : j + 1 = prodDims cs) :
    (increment (stateAt cs j)).done = true := by
  have hrev : (setVals cs (digitsMS cs j)).reverse =
      setVals cs.reverse (digitsLS (cs.reverse.map (·.dim)) j) := by
    rw [setVals_reverse cs _ (digitsMS_length cs j)]
    unfold digitsMS
    rw [List.reverse_reverse, List.map_reverse]
  have hprodrev : (cs.reverse.map (·.dim)).prod = prodDims cs := by
    rw [List.map_reverse, List.prod_reverse]
    rfl
  show (false || (incLS (setVals cs (digitsMS cs j)).reverse).2) = true
  rw [hrev, incLS_digits_done cs.reverse j (by simpa using hne)
    (fun c hc => h1 c (List.mem_reverse.mp hc)) (by rw [hprodrev]; exact hj)]
  rfl

theorem prodDims_pos (cs : List einsumCounter) (h1 : ∀ c ∈ cs, 1 ≤ c.dim) :
    1 ≤ prodDims cs := by
  refine List.one_le_prod_of_one_le ?_
  intro x hx
  obtain ⟨c', hc', rfl⟩ := List.mem_map.mp hx
  exact h1 c' hc'

/-- From the all-zero state, `j` increments land exactly on the state
holding the mixed-radix digits of `j`, for every `j` inside the
iteration space. -/
theorem iterInc_stateAt (cs : List einsumCounter)
    (h0 : ∀ c ∈ cs, c.v = 0) (h1 : ∀ c ∈ cs, 1 ≤ c.dim) :
    ∀ j, j < prodDims cs → iterInc j ⟨cs, false⟩ = stateAt cs j := by
  intro j
  induction j with
  | zero => intro _; exact (stateAt_zero cs h0).symm
  | succ j ih =>
      intro hj
      rw [iterInc_succ, ih (by omega), increment_stateAt cs j h1 hj]

/-- After exactly `prodDims` increments from the all-zero state the done
flag is set. -/
theorem iterInc_done_at_prod (cs : List einsumCounter) (hne : cs ≠ [])
    (h0 : ∀ c ∈ cs, c.v = 0) (h1 : ∀ c ∈ cs, 1 ≤ c.dim) :
    (iterInc (prodDims cs) ⟨cs, false⟩).done = true := by
  have hP : 1 ≤ prodDims cs := prodDims_pos cs h1
  have : prodDims cs = (prodDims cs - 1) + 1 := by omega
  rw [this, iterInc_succ,
    iterInc_stateAt cs h0 h1 (prodDims cs - 1) (by omega)]
  exact increment_stateAt_done cs (prodDims cs - 1) hne h1 (by omega)

theorem iterInc_nil (k : Nat) : iterInc k ⟨[], false⟩ = ⟨[], false⟩ := by
  induction k with
  | zero => rfl
  | succ k ih =>
      show iterInc k (increment ⟨[], false⟩) = ⟨[], false⟩
      rw [increment_nil]
      exact ih

/-- C2 (amended): for every NON-EMPTY counter sequence whose extents are
all at least 1, starting from the all-zero state, the `j`-th iterate of
the increment step (for `j` below the product of the extents) is exactly
the state whose counter values read, last counter least significant, as
the mixed-radix digits of `j` — so the `∏ dims` visited states are
pairwise distinct, in lexicographic (mixed-radix) order, cover every
combination below the extents, and the done flag first becomes true at
step `∏ dims` and not before.  (For the empty counter sequence the done
flag is never set; see the counterexample.) -/
theorem odometer_enumerates (cs : List einsumCounter) (hne : cs ≠ [])
    (h0 : ∀ c ∈ cs, c.v = 0) (h1 : ∀ c ∈ cs, 1 ≤ c.dim) :
    (∀ j, j < prodDims cs →
      (iterInc j ⟨cs, false⟩).done = false ∧
      (iterInc j ⟨cs, false⟩).c.map (·.v) = digitsMS cs j) ∧
    (iterInc (prodDims cs) ⟨cs, false⟩).done = true ∧
    (∀ j k, j < prodDims cs → k < prodDims cs →
      digitsMS cs j = digitsMS cs k → j = k) ∧
    (∀ vs : List Nat, List.Forall₂ (· < ·) vs (cs.map (·.dim)) →
      ∃ j, j < prodDims cs ∧ digitsMS cs j = vs) := by
  have hrevdim : ∀ d ∈ (cs.map (·.dim)).reverse, 1 ≤ d := by
    intro d hd
    rw [List.mem_reverse] at hd
    obtain ⟨c', hc', rfl⟩ := List.mem_map.mp hd
    exact h1 c' hc'
  have hrevprod : ((cs.map (·.dim)).reverse).prod = prodDims cs :=
    List.prod_reverse _
  refine ⟨?_, iterInc_done_at_prod cs hne h0 h1, ?_, ?_⟩
  · intro j hj
    rw [iterInc_stateAt cs h0 h1 j hj]
    exact ⟨rfl, setVals_map_v cs _ (digitsMS_length cs j)⟩
  · intro j k hj hk hjk
    have hrev : digitsLS ((cs.map (·.dim)).reverse) j
        = digitsLS ((cs.map (·.dim)).reverse) k := by
      have := congrArg List.reverse hjk
      unfold digitsMS at this
      rwa [List.reverse_reverse, List.reverse_reverse] at this
    have hvj := valLS_digitsLS ((cs.map (·.dim)).reverse) j hrevdim
      (by rw [hrevprod]; exact hj)
    have hvk := valLS_digitsLS ((cs.map (·.dim)).reverse) k hrevdim
      (by rw [hrevprod]; exact hk)
    rw [← hvj, ← hvk, hrev]
  · intro vs hvs
    have hvs' : List.Forall₂ (· < ·) vs.reverse ((cs.map (·.dim)).reverse) :=
      List.rel_reverse hvs
    obtain ⟨j, hj, hdig⟩ := digitsLS_exists hvs'
    refine ⟨j, by rw [← hrevprod]; exact hj, ?_⟩
    unfold digitsMS
    rw [hdig, List.reverse_reverse]

/-- Witness for `odometer_enumerates` on two counters of extents 2, 3. -/
theorem odometer_enumerates_witness :
    (∀ j, j < prodDims [⟨'i', false, 0, 2⟩, ⟨'j', false, 0, 3⟩] →
      (iterInc j ⟨[⟨'i', false, 0, 2⟩, ⟨'j', false, 0, 3⟩], false⟩).done = false ∧
      (iterInc j ⟨[⟨'i', false, 0, 2⟩, ⟨'j', false, 0, 3⟩], false⟩).c.map (·.v) =
        digitsMS [⟨'i', false, 0, 2⟩, ⟨'j', false, 0, 3⟩] j) ∧
    (iterInc (prodDims [⟨'i', false, 0, 2⟩, ⟨'j', false, 0, 3⟩])
      ⟨[⟨'i', false, 0, 2⟩, ⟨'j', false, 0, 3⟩], false⟩).done = true ∧
    (∀ j k, j < prodDims [⟨'i', false, 0, 2⟩, ⟨'j', false, 0, 3⟩] →
      k < prodDims [⟨'i', false, 0, 2⟩, ⟨'j', false, 0, 3⟩] →
      digitsMS [⟨'i', false, 0, 2⟩, ⟨'j', false, 0, 3⟩] j =
        digitsMS [⟨'i', false, 0, 2⟩, ⟨'j', false, 0, 3⟩] k → j = k) ∧
    (∀ vs : List Nat,
      List.Forall₂ (· < ·) vs ([⟨'i', false, 0, 2⟩, ⟨'j', false, 0, 3⟩].map
        (einsumCounter.dim)) →
      ∃ j, j < prodDims [⟨'i', false, 0, 2⟩, ⟨'j', false, 0, 3⟩] ∧
        digitsMS [⟨'i', false, 0, 2⟩, ⟨'j', false, 0, 3⟩] j = vs) :=
  odometer_enumerates [⟨'i', false, 0, 2⟩, ⟨'j', false, 0, 3⟩]
    (by decide) (by decide) (by decide)

/-- C9: the drive loop's iterated increment eventually sets the done
flag if and only if the counter sequence is non-empty: with at least one
counter (all extents at least 1, fresh all-zero state) the flag is set
after finitely many steps, while with no counters the increment step is
the identity and the flag can never be set — the loop runs forever. -/
theorem drive_loop_terminates_iff (e : einsumExecutor)
    (hd : e.done = false) (h0 : ∀ c ∈ e.c, c.v = 0)
    (h1 : ∀ c ∈ e.c, 1 ≤ c.dim) :
    (∃ k, (iterInc k e).done = true) ↔ e.c ≠ [] := by
  cases e with
  | mk cs done =>
      simp only at hd h0 h1 ⊢
      subst hd
      constructor
      · rintro ⟨k, hk⟩ hnil
        subst hnil
        rw [iterInc_nil k] at hk
        cases hk
      · intro hne
        exact ⟨prodDims cs, iterInc_done_at_prod cs hne h0 h1⟩

/-- Witness for `drive_loop_terminates_iff` on one counter of extent 2. -/
theorem drive_loop_terminates_iff_witness :
    (∃ k, (iterInc k ⟨[⟨'i', true, 0, 2⟩], false⟩).done = true) ↔
      ([⟨'i', true, 0, 2⟩] : List einsumCounter) ≠ [] :=
  drive_loop_terminates_iff ⟨[⟨'i', true, 0, 2⟩], false⟩ rfl
    (by decide) (by decide)

/-! Evaluation of the loop body on a digit state. -/

theorem digitsMS_lt (cs : List einsumCounter) (j : Nat)
    (h1 : ∀ c ∈ cs, 1 ≤ c.dim) :
    List.Forall₂ (· < ·) (digitsMS cs j) (cs.map (·.dim)) := by
  have hrevdim : ∀ d ∈ (cs.map (·.dim)).reverse, 1 ≤ d := by
    intro d hd
    rw [List.mem_reverse] at hd
    obtain ⟨c', hc', rfl⟩ := List.mem_map.mp hd
    exact h1 c' hc'
  have h := List.rel_reverse (digitsLS_lt ((cs.map (·.dim)).reverse) j hrevdim)
  rwa [List.reverse_reverse] at h

/-- Looking up a rune in a digit state succeeds with the pure lookup,
whose value is below the rune's counter dimension. -/
theorem counterValFor_setVals (cs : List einsumCounter) :
    ∀ ws : List Nat, List.Forall₂ (· < ·) ws (cs.map (·.dim)) →
      ∀ r : Char, (∃ c ∈ cs, c.r = r) →
      counterValFor (setVals cs ws) r = .ok (counterValForD (setVals cs ws) r) ∧
      counterValForD (setVals cs ws) r < counterDimFor cs r := by
  induction cs with
  | nil =>
      intro ws _ r hmem
      obtain ⟨c, hc, -⟩ := hmem
      exact absurd hc (List.not_mem_nil c)
  | cons c cs ih =>
      intro ws hws r hmem
      cases ws with
      | nil => cases hws
      | cons w ws' =>
          rw [List.map_cons] at hws
          cases hws with
          | cons hw hws' =>
              show (if c.r = r then Except.ok w else counterValFor (setVals cs ws') r) =
                  .ok (if c.r = r then w else counterValForD (setVals cs ws') r) ∧
                (if c.r = r then w else counterValForD (setVals cs ws') r) <
                  (if c.r = r then c.dim else counterDimFor cs r)
              by_cases hr : c.r = r
              · rw [if_pos hr, if_pos hr, if_pos hr]
                exact ⟨rfl, hw⟩
              · rw [if_neg hr, if_neg hr, if_neg hr]
                refine ih ws' hws' r ?_
                obtain ⟨c', hc', hcr⟩ := hmem
                rcases List.mem_cons.mp hc' with rfl | htail
                · exact absurd hcr hr
                · exact ⟨c', htail, hcr⟩

/-- One operand's element read in a digit state succeeds with the pure
read. -/
theorem readOne_setVals (cs : List einsumCounter) (ws : List Nat)
    (hws : List.Forall₂ (· < ·) ws (cs.map (·.dim)))
    (input : List Char) (m : Matrix) (hok : OperandOK cs input m) :
    readOne (setVals cs ws) input m = .ok (readOneD (setVals cs ws) input m) := by
  match input, hok with
  | [r], ⟨hmem, hrow, hcol⟩ =>
      obtain ⟨hv, hlt⟩ := counterValFor_setVals cs ws hws r hmem
      have hmapM : (([r].mapM (counterValFor (setVals cs ws))) :
          Except EinErr (List Nat)) = .ok [counterValForD (setVals cs ws) r] := by
        rw [List.mapM_cons, hv, List.mapM_nil]
        rfl
      unfold readOne readOneD
      rw [hmapM]
      show (m.At (counterValForD (setVals cs ws) r) 0) =
        .ok (m.atD (counterValForD (setVals cs ws) r) 0)
      unfold Matrix.At Matrix.atD
      rw [if_pos ⟨by omega, hcol⟩]
  | [r₁, r₂], ⟨hmem₁, hmem₂, hrow, hcol⟩ =>
      obtain ⟨hv₁, hlt₁⟩ := counterValFor_setVals cs ws hws r₁ hmem₁
      obtain ⟨hv₂, hlt₂⟩ := counterValFor_setVals cs ws hws r₂ hmem₂
      have hmapM : (([r₁, r₂].mapM (counterValFor (setVals cs ws))) :
          Except EinErr (List Nat)) =
          .ok [counterValForD (setVals cs ws) r₁,
               counterValForD (setVals cs ws) r₂] := by
        rw [List.mapM_cons, hv₁, List.mapM_cons, hv₂, List.mapM_nil]
        rfl
      unfold readOne readOneD
      rw [hmapM]
      show (m.At (counterValForD (setVals cs ws) r₁)
          (counterValForD (setVals cs ws) r₂)) =
        .ok (m.atD (counterValForD (setVals cs ws) r₁)
          (counterValForD (setVals cs ws) r₂))
      unfold Matrix.At Matrix.atD
      rw [if_pos ⟨by omega, by omega⟩]

/-- The loop body's product over the operands succeeds with the pure
product in a digit state. -/
theorem computeCur_setVals (cs : List einsumCounter) (ws : List Nat)
    (hws : List.Forall₂ (· < ·) ws (cs.map (·.dim))) :
    ∀ (inputs : List (List Char)) (operands : List Matrix),
      List.Forall₂ (OperandOK cs) inputs operands →
      computeCur (setVals cs ws) inputs operands =
        .ok (curAtD (setVals cs ws) inputs operands) := by
  intro inputs operands hop
  induction hop with
  | nil => rfl
  | cons hok htail ih =>
      rename_i input m inputs' operands'
      show computeCur (setVals cs ws) (input :: inputs') (m :: operands') = _
      unfold computeCur
      rw [readOne_setVals cs ws hws input m hok, ih]
      rfl

theorem outputIdx_all_summed (e : einsumExecutor)
    (h : ∀ c ∈ e.c, c.free = false) : outputIdx e = 0 := by
  unfold outputIdx
  have haux : ∀ (l : List einsumCounter) (p : Nat × Nat),
      (∀ c ∈ l, c.free = false) →
      (l.foldl (fun p ec => if ec.free then (p.1 + ec.v * p.2, p.2 * ec.dim) else p)
        p) = p := by
    intro l
    induction l with
    | nil => intro p _; rfl
    | cons c l ih =>
        intro p hl
        show (l.foldl _ (if c.free then _ else p)) = p
        rw [hl c (List.mem_cons_self c l)]
        show (l.foldl _ p) = p
        exact ih p (fun x hx => hl x (List.mem_cons_of_mem c hx))
  rw [haux e.c.reverse (0, 1)
    (fun c hc => h c (List.mem_reverse.mp hc))]

theorem setVals_free_false (cs : List einsumCounter)
    (h : ∀ c ∈ cs, c.free = false) :
    ∀ ws : List Nat, ∀ x ∈ setVals cs ws, x.free = false := by
  induction cs with
  | nil => intro ws x hx; exact absurd hx (by simp [setVals])
  | cons c cs ih =>
      intro ws x hx
      cases ws with
      | nil => exact absurd hx (by simp [setVals])
      | cons w ws' =>
          rcases List.mem_cons.mp hx with rfl | htail
          · exact h c (List.mem_cons_self c cs)
          · exact ih (fun y hy => h y (List.mem_cons_of_mem c hy)) ws' x htail

/-- The drive loop over an all-summed (scalar) counter space: starting
at step `j` with a one-cell accumulator, it terminates with the
accumulator increased by the sum of the body products over the remaining
steps. -/
theorem runLoop_scalar (inputs : List (List Char)) (operands : List Matrix)
    (cs : List einsumCounter)
    (h0 : ∀ c ∈ cs, c.v = 0) (h1 : ∀ c ∈ cs, 1 ≤ c.dim)
    (hfree : ∀ c ∈ cs, c.free = false) (hne : cs ≠ [])
    (hop : List.Forall₂ (OperandOK cs) inputs operands) :
    ∀ (n j : Nat), j + n = prodDims cs → ∀ acc : Int,
      runLoop inputs operands (n + 1) (iterInc j ⟨cs, false⟩) [acc] =
        .ok [acc + ∑ t ∈ Finset.Ico j (prodDims cs),
          curAtD (setVals cs (digitsMS cs t)) inputs operands] := by
  intro n
  induction n with
  | zero =>
      intro j hj acc
      have hj' : j = prodDims cs := by omega
      subst hj'
      have hdone := iterInc_done_at_prod cs hne h0 h1
      show (if (iterInc (prodDims cs) ⟨cs, false⟩).done = true
          then Except.ok [acc] else _) = _
      rw [if_pos hdone, Finset.Ico_self, Finset.sum_empty, add_zero]
  | succ n ih =>
      intro j hj acc
      have hjlt : j < prodDims cs := by omega
      have hstate := iterInc_stateAt cs h0 h1 j hjlt
      have hws := digitsMS_lt cs j h1
      have hcur := computeCur_setVals cs (digitsMS cs j) hws inputs operands hop
      have hfree' : ∀ x ∈ setVals cs (digitsMS cs j), x.free = false :=
        setVals_free_false cs hfree (digitsMS cs j)
      have hidx : outputIdx (stateAt cs j) = 0 :=
        outputIdx_all_summed _ (by intro x hx; exact hfree' x hx)
      show (if (iterInc j ⟨cs, false⟩).done = true then Except.ok [acc] else _) = _
      rw [hstate]
      show (if false = true then Except.ok [acc] else
        match computeCur (stateAt cs j).c inputs operands with
        | Except.error err => Except.error err
        | Except.ok cur =>
          match setAdd [acc] (outputIdx (stateAt cs j)) cur with
          | Except.error err => Except.error err
          | Except.ok out' =>
            runLoop inputs operands (n + 1) (increment (stateAt cs j)) out') = _
      rw [if_neg (by decide), hidx]
      show (match computeCur (setVals cs (digitsMS cs j)) inputs operands with
        | Except.error err => Except.error err
        | Except.ok cur =>
          match setAdd [acc] 0 cur with
          | Except.error err => Except.error err
          | Except.ok out' =>
            runLoop inputs operands (n + 1) (increment (stateAt cs j)) out') = _
      rw [hcur]
      show (match setAdd [acc] 0 (curAtD (setVals cs (digitsMS cs j)) inputs operands) with
        | Except.error err => Except.error err
        | Except.ok out' =>
          runLoop inputs operands (n + 1) (increment (stateAt cs j)) out') = _
      have hset : setAdd [acc] 0 (curAtD (setVals cs (digitsMS cs j)) inputs operands) =
          .ok [acc + curAtD (setVals cs (digitsMS cs j)) inputs operands] := by
        unfold setAdd
        rw [if_pos (by simp : (0 : Nat) < [acc].length)]
        rfl
      rw [hset]
      show runLoop inputs operands (n + 1) (increment (stateAt cs j))
          [acc + curAtD (setVals cs (digitsMS cs j)) inputs operands] = _
      rw [← hstate, ← iterInc_succ,
        ih (j + 1) (by omega) (acc + curAtD (setVals cs (digitsMS cs j)) inputs operands)]
      rw [Finset.sum_eq_sum_Ico_succ_bot hjlt
        (fun t => curAtD (setVals cs (digitsMS cs t)) inputs operands)]
      rw [add_assoc]

/-- Resolving the dimensions preserves the rune, the free flag and the
(zero) value of every counter slot. -/
theorem mapM_resolveDim_ok (o : einsumOps) (operands : List Matrix) :
    ∀ (base cs : List einsumCounter),
      base.mapM (resolveDim o operands) = .ok cs →
      List.Forall₂ (fun b c => c.r = b.r ∧ c.free = b.free ∧ c.v = b.v) base cs := by
  intro base
  induction base with
  | nil =>
      intro cs h
      rw [List.mapM_nil] at h
      have h' : (Except.ok ([] : List einsumCounter) : Except EinErr _) = .ok cs := h
      injection h' with h''
      subst h''
      exact List.Forall₂.nil
  | cons b base ih =>
      intro cs h
      rw [List.mapM_cons] at h
      cases hr : resolveDim o operands b with
      | error e =>
          rw [hr] at h
          have h' : (Except.error e : Except EinErr (List einsumCounter)) = .ok cs := h
          cases h'
      | ok c0 =>
          rw [hr] at h
          have h2 : (base.mapM (resolveDim o operands) >>=
              fun xs => pure (c0 :: xs) : Except EinErr (List einsumCounter)) = .ok cs := h
          cases hm : base.mapM (resolveDim o operands) with
          | error e =>
              rw [hm] at h2
              have h' : (Except.error e : Except EinErr (List einsumCounter)) = .ok cs := h2
              cases h'
          | ok cs' =>
              rw [hm] at h2
              have h' : (Except.ok (c0 :: cs') : Except EinErr (List einsumCounter)) = .ok cs := h2
              injection h' with h''
              subst h''
              refine List.Forall₂.cons ?_ (ih cs' hm)
              unfold resolveDim at hr
              cases hd : dimOfGo b.r o.inputs operands with
              | error e => rw [hd] at hr; cases hr
              | ok d =>
                  rw [hd] at hr
                  injection hr with hr'
                  subst hr'
                  exact ⟨rfl, rfl, rfl⟩

/-- A letter occurring in no operand sequence resolves, without any
error, to the unset extent 0. -/
theorem dimOfAux_unbound (r : Char) :
    ∀ (inputs : List (List Char)) (operands : List Matrix) (i : Nat),
      (∀ input ∈ inputs, r ∉ input) →
      dimOfAux r inputs operands i 0 = .ok 0 := by
  intro inputs
  induction inputs with
  | nil => intro ops i _; rfl
  | cons input rest ih =>
      intro ops i h
      have hf : input.findIdx? (· = r) = none := by
        rw [List.findIdx?_eq_none_iff]
        intro x hx
        by_cases hxr : x = r
        · exact absurd (hxr ▸ hx) (h input (List.mem_cons_self _ _))
        · simp [hxr]
      simp only [dimOfAux, hf]
      exact ih ops.tail (i + 1) (fun inp hi => h inp (List.mem_cons_of_mem input hi))

/-- C6 (amended): a letter that appears in the output but in no operand
sequence does NOT make dimension resolution fail — it resolves to the
unset extent 0 — and evaluation then fails during the first loop
iteration with an out-of-range write into the (empty) output buffer, as
on "i->ij", rather than with a malformed-expression error. -/
theorem unresolved_letter_zero_then_oob :
    (∀ (inputs : List (List Char)) (operands : List Matrix) (r : Char),
      (∀ input ∈ inputs, r ∉ input) →
      dimOfGo r inputs operands = .ok 0) ∧
    Einsum "i->ij" [⟨2, 1, [1, 2]⟩] = .error .indexOutOfRange :=
  ⟨fun inputs operands r h => dimOfAux_unbound r inputs operands 0 h, rfl⟩

theorem forallTwo_mem_right {α β : Type} {R : α → β → Prop} :
    ∀ {l₁ : List α} {l₂ : List β}, List.Forall₂ R l₁ l₂ →
      ∀ b ∈ l₂, ∃ a ∈ l₁, R a b := by
  intro l₁ l₂ h
  induction h with
  | nil => intro b hb; exact absurd hb (List.not_mem_nil b)
  | cons hab htail ih =>
      intro b hb
      rcases List.mem_cons.mp hb with rfl | hb'
      · exact ⟨_, List.mem_cons_self _ _, hab⟩
      · obtain ⟨a, ha, hr⟩ := ih b hb'
        exact ⟨a, List.mem_cons_of_mem _ ha, hr⟩

/-- C10: for a subscript of letters, commas and whitespace (no "->"
marker) with at least one operand sequence, parsing succeeds with an
empty output sequence, every rune is classified as summed (the free set
is empty and every counter is a summed counter), and — whenever the
executor resolves the dimensions (all positive) and the operands fit
their sequences — evaluation returns the empty shape together with a
one-element values buffer holding the full sum over all index
combinations of the products of operand elements. -/
theorem scalar_sum_no_arrow (s : String) (operands : List Matrix)
    (ops : einsumOps) (exc : einsumExecutor) (dims' : List Nat)
    (hchars : ∀ c ∈ s.toList, goodChar c)
    (hparse : parseEinsum s = .ok ops)
    (hinputs : ops.inputs ≠ [])
    (hexec : ops.executor operands = .ok (exc, dims'))
    (hdims : ∀ c ∈ exc.c, 1 ≤ c.dim)
    (hop : List.Forall₂ (OperandOK exc.c) ops.inputs operands) :
    ops.output = [] ∧ ops.free = [] ∧ (∀ c ∈ exc.c, c.free = false) ∧
    dims' = [] ∧
    Einsum s operands = .ok ([], [fullSum exc.c ops.inputs operands]) := by
  -- the parse leaves output and free empty
  obtain ⟨m', o', hgo, hmne, hout, hfre, hinpnil, hinv⟩ :=
    parseGo_good s.toList .newInput ⟨[], [], [], [], []⟩ hchars
      (by intro h; cases h) (by intro h; cases h)
      (by intro i hi; exact absurd hi (List.not_mem_nil i))
  have hopseq : ops = o' := by
    unfold parseEinsum at hparse
    rw [hgo] at hparse
    have h' : (Except.ok o' : Except EinErr einsumOps) = .ok ops := hparse
    injection h' with h''
    exact h''.symm
  subst hopseq
  have hout' : ops.output = [] := hout
  have hfre' : ops.free = [] := hfre
  -- the executor: all counters are summed slots over `all`
  have hexec' := hexec
  simp only [einsumOps.executor, hout', hfre'] at hexec'
  have hfilter : ops.all.filter (fun r => !(List.contains ([] : List Char) r)) =
      ops.all := List.filter_eq_self.mpr (fun a _ => rfl)
  rw [hfilter] at hexec'
  rw [if_pos (by simp)] at hexec'
  simp only [List.map_nil, List.nil_append] at hexec'
  cases hm : (ops.all.map (fun r => (⟨r, false, 0, 0⟩ : einsumCounter))).mapM
      (resolveDim ops operands) with
  | error e => rw [hm] at hexec'; cases hexec'
  | ok cs =>
      rw [hm] at hexec'
      have hpair : ((⟨cs, false⟩ : einsumExecutor),
          (cs.filter (·.free)).map (·.dim)) = (exc, dims') := by
        injection hexec'
      have hexc : (⟨cs, false⟩ : einsumExecutor) = exc := congrArg Prod.fst hpair
      have hdl : (cs.filter (·.free)).map (·.dim) = dims' := congrArg Prod.snd hpair
      have hrel := mapM_resolveDim_ok ops operands _ cs hm
      have hcsfree : ∀ c ∈ cs, c.free = false := by
        intro c hc
        obtain ⟨b, hb, _, hbf, -⟩ := forallTwo_mem_right hrel c hc
        obtain ⟨r, -, rfl⟩ := List.mem_map.mp hb
        exact hbf
      have hcsv : ∀ c ∈ cs, c.v = 0 := by
        intro c hc
        obtain ⟨b, hb, -, -, hbv⟩ := forallTwo_mem_right hrel c hc
        obtain ⟨r, -, rfl⟩ := List.mem_map.mp hb
        exact hbv
      have hexcc : exc.c = cs := by rw [← hexc]
      have hfreeflags : ∀ c ∈ exc.c, c.free = false := by
        rw [hexcc]; exact hcsfree
      have hdimsnil : dims' = [] := by
        rw [← hdl]
        have : cs.filter (·.free) = [] := by
          rw [List.filter_eq_nil_iff]
          intro c hc
          rw [hcsfree c hc]
          simp
        rw [this, List.map_nil]
      -- non-emptiness of the counter list
      have hallne : ops.all ≠ [] := by
        obtain ⟨inp, hinp⟩ := List.exists_mem_of_ne_nil _ hinputs
        obtain ⟨hinpne, hsub⟩ := hinv inp hinp
        obtain ⟨ch, hch⟩ := List.exists_mem_of_ne_nil _ hinpne
        exact List.ne_nil_of_mem (hsub ch hch)
      have hcsne : cs ≠ [] := by
        intro hnil
        have hlen := hrel.length_eq
        rw [hnil, List.length_map] at hlen
        simp only [List.length_nil] at hlen
        exact hallne (List.eq_nil_of_length_eq_zero hlen)
      have hcsdims : ∀ c ∈ cs, 1 ≤ c.dim := by rw [← hexcc]; exact hdims
      have hop' : List.Forall₂ (OperandOK cs) ops.inputs operands := by
        rw [← hexcc]; exact hop
      -- run the evaluator
      have h1 : Einsum s operands = (match ops.executor operands with
          | .error e => .error e
          | .ok (exc, dim) =>
            match runLoop ops.inputs operands (prodDims exc.c + 1) exc
                (outputZeros dim) with
            | .error e => .error e
            | .ok res => .ok (dim, res)) := by
        unfold Einsum
        rw [hparse]
      rw [hexec] at h1
      have h2 : Einsum s operands =
          (match runLoop ops.inputs operands (prodDims exc.c + 1) exc
              (outputZeros dims') with
          | .error e => .error e
          | .ok res => .ok (dims', res)) := h1
      rw [hdimsnil, ← hexc] at h2
      have h3 : Einsum s operands =
          (match runLoop ops.inputs operands (prodDims cs + 1)
              (⟨cs, false⟩ : einsumExecutor) [(0 : Int)] with
          | .error e => .error e
          | .ok res => .ok (([] : List Nat), res)) := h2
      have hrun := runLoop_scalar ops.inputs operands cs hcsv hcsdims hcsfree hcsne
        hop' (prodDims cs) 0 (by omega) 0
      have hrun' : runLoop ops.inputs operands (prodDims cs + 1)
          (⟨cs, false⟩ : einsumExecutor) [(0 : Int)] =
          .ok [(0 : Int) + ∑ t ∈ Finset.Ico 0 (prodDims cs),
            curAtD (setVals cs (digitsMS cs t)) ops.inputs operands] := hrun
      rw [hrun'] at h3
      have hsum : (0 : Int) + ∑ t ∈ Finset.Ico 0 (prodDims cs),
          curAtD (setVals cs (digitsMS cs t)) ops.inputs operands =
          fullSum cs ops.inputs operands := by
        unfold fullSum
        rw [Finset.range_eq_Ico, zero_add]
      have h4 : Einsum s operands = .ok (([] : List Nat),
          [fullSum cs ops.inputs operands]) := by
        rw [h3, hsum]
      refine ⟨hout', hfre', hfreeflags, hdimsnil, ?_⟩
      rw [hexcc, h4]

/-- Witness for `scalar_sum_no_arrow`: the subscript "i,i" (element-wise
product, no output marker) over the vectors [1,2] and [3,4]. -/
theorem scalar_sum_no_arrow_witness :
    (⟨['i', ',', 'i'], ['i'], [], [['i'], ['i']], []⟩ : einsumOps).output = [] ∧
    (⟨['i', ',', 'i'], ['i'], [], [['i'], ['i']], []⟩ : einsumOps).free = [] ∧
    (∀ c ∈ (⟨[⟨'i', false, 0, 2⟩], false⟩ : einsumExecutor).c, c.free = false) ∧
    ([] : List Nat) = [] ∧
    Einsum "i,i" [⟨2, 1, [1, 2]⟩, ⟨2, 1, [3, 4]⟩] =
      .ok ([], [fullSum (⟨[⟨'i', false, 0, 2⟩], false⟩ : einsumExecutor).c
        (⟨['i', ',', 'i'], ['i'], [], [['i'], ['i']], []⟩ : einsumOps).inputs
        [⟨2, 1, [1, 2]⟩, ⟨2, 1, [3, 4]⟩]]) :=
  scalar_sum_no_arrow "i,i" [⟨2, 1, [1, 2]⟩, ⟨2, 1, [3, 4]⟩]
    ⟨['i', ',', 'i'], ['i'], [], [['i'], ['i']], []⟩
    ⟨[⟨'i', false, 0, 2⟩], false⟩ []
    (by decide) rfl (by decide) rfl (by decide)
    (List.Forall₂.cons
      (show (∃ c ∈ [(⟨'i', false, 0, 2⟩ : einsumCounter)], c.r = 'i') ∧
        counterDimFor [⟨'i', false, 0, 2⟩] 'i' ≤ 2 ∧ 0 < 1 from by decide)
      (List.Forall₂.cons
        (show (∃ c ∈ [(⟨'i', false, 0, 2⟩ : einsumCounter)], c.r = 'i') ∧
          counterDimFor [⟨'i', false, 0, 2⟩] 'i' ≤ 2 ∧ 0 < 1 from by decide)
        List.Forall₂.nil))

end GonumMat
